import Mathlib

/-!
Verification development for the Laravel/PHP code-chunking pipeline of the
`code_assistant` repository.  The Python sources under
`src/langugae_processors/php_processor.py` and
`src/langugae_processors/laravel_processor.py` are shallowly embedded below:
pure string manipulation is translated to functions on `List Char` / `String`,
the tree-sitter syntax tree is an explicit inductive type whose nodes carry the
byte offsets and row numbers the parser reports, the filesystem is an explicit
tree, and fallible operations (file decoding, the tree-sitter parse call)
return `Except`.  Regular-expression scans from the source are embedded as
equivalent explicit scanning functions over the character list.
-/

namespace CodeAssistant

/-- Whitespace stripped by Python `bytes.strip()` (ASCII whitespace). -/
def isAsciiWS (c : Char) : Bool :=
  c = ' ' || c = '\t' || c = '\n' || c = '\r' || c = '\x0b' || c = '\x0c'

/-- Whitespace stripped by Python `str.strip()`: the ASCII whitespace set plus
the further code points Python treats as spaces.  Inputs in this development
are ASCII, where this agrees exactly with Python. -/
def isPyWS (c : Char) : Bool :=
  isAsciiWS c || c = '\x1c' || c = '\x1d' || c = '\x1e' || c = '\x1f' ||
  c = '\x85' || c = '\xa0' || c = ' ' || c = ' ' || c = ' ' ||
  c = ' ' || c = ' ' || c = ' ' || c = ' ' || c = ' ' ||
  c = ' ' || c = ' ' || c = ' ' || c = ' ' || c = ' ' ||
  c = ' ' || c = ' ' || c = '　' || c = ' '

/-- Strip characters satisfying `p` from both ends of a character list
(Python `str.strip` / `bytes.strip` / `str.strip(chars)`). -/
def pyStripL (p : Char → Bool) (l : List Char) : List Char :=
  (l.dropWhile p).reverse.dropWhile p |>.reverse

/-- Python `str.strip()` on a `String`. -/
def pyStrip (s : String) : String := ⟨pyStripL isPyWS s.data⟩

/-- Python `s.strip('\\')`: strip backslashes from both ends. -/
def pyStripBackslash (s : String) : String := ⟨pyStripL (· = '\\') s.data⟩

/-- Python slicing `s[a:b]` with non-negative indices (clamping at the ends). -/
def pySliceL (l : List Char) (a b : Nat) : List Char := (l.drop a).take (b - a)

/-- Python slicing `s[a:b]` on a `String`. -/
def pySliceStr (s : String) (a b : Nat) : String := ⟨pySliceL s.data a b⟩

/-- Characters at which Python `str.splitlines` breaks lines. -/
def isLineBreak (c : Char) : Bool :=
  c = '\n' || c = '\r' || c = '\x0b' || c = '\x0c' || c = '\x1c' || c = '\x1d' ||
  c = '\x1e' || c = '\x85' || c = ' ' || c = ' '

/-- Python `str.splitlines()` on a character list; `\r\n` counts as one break. -/
def pySplitlinesL : List Char → List Char → List (List Char)
  | [], acc => if acc.isEmpty then [] else [acc.reverse]
  | '\r' :: '\n' :: rest, acc => acc.reverse :: pySplitlinesL rest []
  | c :: rest, acc =>
      if isLineBreak c then acc.reverse :: pySplitlinesL rest []
      else pySplitlinesL rest (c :: acc)

/-- Python `str.splitlines()` on a `String`. -/
def pySplitlines (s : String) : List String :=
  (pySplitlinesL s.data []).map (⟨·⟩)

/-- Decide whether `pre` is a prefix of `l`. -/
def listIsPre : List Char → List Char → Bool
  | [], _ => true
  | _ :: _, [] => false
  | a :: as, b :: bs => a = b && listIsPre as bs

/-- Python `s.startswith(pre)`. -/
def pyStartsWith (s pre : String) : Bool := listIsPre pre.data s.data

/-- Python `s.endswith(suf)`. -/
def pyEndsWith (s suf : String) : Bool := listIsPre suf.data.reverse s.data.reverse

/-- Python substring containment `sub in s` over character lists. -/
def containsSubL (l sub : List Char) : Bool :=
  listIsPre sub l || (match l with
    | [] => false
    | _ :: rest => containsSubL rest sub)

/-- Python substring containment `sub in s` on strings. -/
def containsSub (s sub : String) : Bool := containsSubL s.data sub.data

/-- Count occurrences of a character (Python `s.count(c)`). -/
def countChar (l : List Char) (c : Char) : Nat := l.countP (· = c)

/-- Python `str.count(sub)`: non-overlapping occurrences of a substring. -/
def countSubL : List Char → List Char → Nat
  | _, [] => 0
  | [], _ => 0
  | a :: rest, s :: ss =>
      if listIsPre (s :: ss) (a :: rest) then 1 + countSubL (rest.drop ss.length) (s :: ss)
      else countSubL rest (s :: ss)
  termination_by l _ => l.length
  decreasing_by
    · simp only [List.length_drop, List.length_cons]; omega
    · simp only [List.length_cons]; omega

/-- Split a character list at every occurrence of `sep` (Python `s.split(sep)`
for a one-character separator). -/
def splitOnCharL (sep : Char) : List Char → List Char → List (List Char)
  | [], acc => [acc.reverse]
  | c :: rest, acc =>
      if c = sep then acc.reverse :: splitOnCharL sep rest []
      else splitOnCharL sep rest (c :: acc)

/-- Python `s.split(sep)[-1]` for a one-character separator. -/
def lastSplitSeg (sep : Char) (s : String) : String :=
  ⟨(splitOnCharL sep s.data []).getLastD []⟩

/-- Python `os.path.basename` for POSIX paths. -/
def pyBasename (s : String) : String := lastSplitSeg '/' s

/-- Python `s.replace(a, b)` for one-character patterns. -/
def pyReplaceChar (s : String) (a b : Char) : String :=
  ⟨s.data.map (fun c => if c = a then b else c)⟩

/-- ASCII lower-casing of a string (Python `str.lower` on ASCII input). -/
def asciiLower (s : String) : String :=
  ⟨s.data.map (fun c => if 'A' ≤ c && c ≤ 'Z' then Char.ofNat (c.toNat + 32) else c)⟩

/-- Join a list of strings with a separator (Python `sep.join(parts)`). -/
def pyJoin (sep : String) : List String → String
  | [] => ""
  | [x] => x
  | x :: xs => x ++ sep ++ pyJoin sep xs

/-! ## Syntax-tree model

A tree-sitter node carries its grammar type, the field name under which it sits
in its parent (tree-sitter attaches field names to edges; tagging the child is
equivalent for a fixed tree), its reported byte offsets and 0-indexed rows, and
its children.  `Node`/`NodeList` are mutually inductive so that all recursion
stays structural (kernel-reducible). -/

mutual
inductive Node where
  | mk (ty : String) (fieldTag : Option String) (startByte endByte startRow endRow : Nat)
       (children : NodeList) : Node
inductive NodeList where
  | nil : NodeList
  | cons (head : Node) (tail : NodeList) : NodeList
end

mutual
def Node.beq : Node → Node → Bool
  | .mk t f sb eb sr er cs, .mk t' f' sb' eb' sr' er' cs' =>
    t = t' && f = f' && sb = sb' && eb = eb' && sr = sr' && er = er' && NodeList.beq cs cs'
def NodeList.beq : NodeList → NodeList → Bool
  | .nil, .nil => true
  | .cons a as, .cons b bs => Node.beq a b && NodeList.beq as bs
  | _, _ => false
end

mutual
theorem Node.beqIffEq : ∀ a b : Node, Node.beq a b = true ↔ a = b
  | .mk t f sb eb sr er cs, .mk t' f' sb' eb' sr' er' cs' => by
    simp only [Node.beq, Bool.and_eq_true, decide_eq_true_eq, Node.mk.injEq]
    rw [NodeList.beqIffEqL cs cs']
    tauto
theorem NodeList.beqIffEqL : ∀ a b : NodeList, NodeList.beq a b = true ↔ a = b
  | .nil, .nil => by simp [NodeList.beq]
  | .nil, .cons _ _ => by simp [NodeList.beq]
  | .cons _ _, .nil => by simp [NodeList.beq]
  | .cons a as, .cons b bs => by
    simp only [NodeList.beq, Bool.and_eq_true, NodeList.cons.injEq]
    rw [Node.beqIffEq a b, NodeList.beqIffEqL as bs]
end

instance : DecidableEq Node := fun a b =>
  decidable_of_iff (Node.beq a b = true) (Node.beqIffEq a b)

instance : DecidableEq NodeList := fun a b =>
  decidable_of_iff (NodeList.beq a b = true) (NodeList.beqIffEqL a b)

/-- Children of a node as an ordinary list. -/
def NodeList.toList : NodeList → List Node
  | .nil => []
  | .cons a as => a :: as.toList

def Node.ty : Node → String
  | .mk t _ _ _ _ _ _ => t

def Node.fieldTag : Node → Option String
  | .mk _ f _ _ _ _ _ => f

def Node.startByte : Node → Nat
  | .mk _ _ sb _ _ _ _ => sb

def Node.endByte : Node → Nat
  | .mk _ _ _ eb _ _ _ => eb

def Node.startRow : Node → Nat
  | .mk _ _ _ _ sr _ _ => sr

def Node.endRow : Node → Nat
  | .mk _ _ _ _ _ er _ => er

def Node.children : Node → List Node
  | .mk _ _ _ _ _ _ cs => cs.toList

/-! Embedding of `LaravelProcessor._query_nodes` (php_processor.py:347):
collect every descendant node (the node itself included) of a given grammar
type, depth-first, pre-order. -/
mutual
def queryNodes (t : String) : Node → List Node
  | .mk ty f sb eb sr er cs =>
    (if ty = t then [Node.mk ty f sb eb sr er cs] else []) ++ queryNodesL t cs
def queryNodesL (t : String) : NodeList → List Node
  | .nil => []
  | .cons a as => queryNodes t a ++ queryNodesL t as
end

/-- Embedding of `node.child_by_field_name(f)`: the first child carrying the
given field name. -/
def childByFieldName (n : Node) (f : String) : Option Node :=
  n.children.find? (fun c => c.fieldTag = some f)

/-- Embedding of `LaravelProcessor._get_node_text` (php_processor.py:358):
`source_code[node.start_byte:node.end_byte]`, and `""` for a `None` node.
The source slices the Python `str` at the offsets the parser reports; the
embedding performs the same slice on the same reported offsets. -/
def getNodeTextOpt (n : Option Node) (source : String) : String :=
  match n with
  | none => ""
  | some nd => pySliceStr source nd.startByte nd.endByte

/-- `_get_node_text` applied to a present node. -/
def getNodeText (n : Node) (source : String) : String :=
  pySliceStr source n.startByte n.endByte

/-! ## Chunk data model -/

/-- A value stored in a chunk's metadata dictionary. -/
inductive MVal where
  | s (v : String)
  | n (v : Nat)
  | b (v : Bool)
  | sl (v : List String)
deriving DecidableEq

/-- An open key-value metadata map, in Python dict insertion order. -/
abbrev Metadata := List (String × MVal)

/-- Lookup in a metadata map. -/
def mlookup (m : Metadata) (k : String) : Option MVal :=
  (m.find? (fun kv => kv.1 = k)).map (·.2)

/-- Embedding of the `CodeChunk` dataclass (dto/value_objects.py), as built by
`php_processor.py`. -/
structure CodeChunk where
  type : String
  name : String
  file_path : String
  start_line : Nat
  end_line : Nat
  content : String
  metadata : Metadata
  import_dependencies : List String
  method_dependencies : List String
deriving DecidableEq

/-- Embedding of the chunk dictionaries built by `laravel_processor.py`
(`{"content": ..., "metadata": {...}}`). -/
structure TSChunk where
  content : String
  metadata : Metadata
deriving DecidableEq

/-! ## Regex scans embedded as explicit scanners

Python `re` scans from the source are embedded as explicit character-list
scanners.  `re.findall` tries a match at every position from left to right and
resumes after the end of each match; `re.search` returns the first match.  The
per-pattern `try...At` functions below implement one anchored match attempt of
the corresponding pattern, returning the captured group and the remainder after
the match.  A fuel argument (instantiated with the input length) keeps all
recursion structural so that terms reduce inside the kernel. -/

/-- Regex `\w` on ASCII input. -/
def isWordChar (c : Char) : Bool :=
  ('a' ≤ c && c ≤ 'z') || ('A' ≤ c && c ≤ 'Z') || ('0' ≤ c && c ≤ '9') || c = '_'

/-- Regex `\s` on ASCII input. -/
def isRegexWS (c : Char) : Bool := isAsciiWS c

/-- Character class `[\\A-Za-z0-9_]` of the `use`-statement patterns. -/
def isUseNameChar (c : Char) : Bool := isWordChar c || c = '\\'

def isUpperAZ (c : Char) : Bool := 'A' ≤ c && c ≤ 'Z'

def isQuote (c : Char) : Bool := c = '\'' || c = '"'

/-- Case-insensitive literal prefix match; returns the remainder on success. -/
def ciPrefix : List Char → List Char → Option (List Char)
  | [], l => some l
  | _ :: _, [] => none
  | p :: ps, c :: cs =>
      if asciiLower ⟨[p]⟩ = asciiLower ⟨[c]⟩ then ciPrefix ps cs else none

/-- Literal prefix match; returns the remainder on success. -/
def litPrefix : List Char → List Char → Option (List Char)
  | [], l => some l
  | _ :: _, [] => none
  | p :: ps, c :: cs => if p = c then litPrefix ps cs else none

/-- Require at least one character satisfying `p`; returns (run, remainder). -/
def plusRun (p : Char → Bool) (l : List Char) : Option (List Char × List Char) :=
  let run := l.takeWhile p
  if run.isEmpty then none else some (run, l.drop run.length)

/-- Zero-or-more run: returns (run, remainder). -/
def starRun (p : Char → Bool) (l : List Char) : List Char × List Char :=
  (l.takeWhile p, l.dropWhile p)

/-- Driver for `re.findall`: try a match at every position, resume after each
match.  Every `try_` below consumes at least one character, so fuel equal to
the input length is enough. -/
def findallWith (try_ : List Char → Option (List Char × List Char)) :
    Nat → List Char → List String
  | 0, _ => []
  | _ + 1, [] => []
  | fuel + 1, l@(_ :: rest) =>
      match try_ l with
      | some (grp, rem) => (⟨grp⟩ : String) :: findallWith try_ fuel rem
      | none => findallWith try_ fuel rest

/-- Driver for `re.search`: first position where the pattern matches. -/
def searchWith (try_ : List Char → Option (List Char × List Char)) :
    Nat → List Char → Option String
  | 0, _ => none
  | _ + 1, [] => none
  | fuel + 1, l@(_ :: rest) =>
      match try_ l with
      | some (grp, _) => some ⟨grp⟩
      | none => searchWith try_ fuel rest

/-- One attempt of `use\s+([\\A-Za-z0-9_]+(?:\\[A-Za-z0-9_]+)*)\s*;`
(IGNORECASE).  The first character class already contains the backslash, so
the captured group is the maximal run of name characters; shortening the run
on backtracking can never help because a dropped name character can satisfy
neither `\s` nor `;`. -/
def tryUseAt (l : List Char) : Option (List Char × List Char) := do
  let r1 ← ciPrefix "use".data l
  let (_, r2) ← plusRun isRegexWS r1
  let (grp, r3) ← plusRun isUseNameChar r2
  let (_, r4) := starRun isRegexWS r3
  let r5 ← litPrefix ";".data r4
  some (grp, r5)

/-- One attempt of `use\s+([\\A-Za-z0-9_]+(?:\\[A-Za-z0-9_]+)*)\s+as\s+[A-Za-z0-9_]+\s*;`
(IGNORECASE). -/
def tryUseAsAt (l : List Char) : Option (List Char × List Char) := do
  let r1 ← ciPrefix "use".data l
  let (_, r2) ← plusRun isRegexWS r1
  let (grp, r3) ← plusRun isUseNameChar r2
  let (_, r4) ← plusRun isRegexWS r3
  let r5 ← ciPrefix "as".data r4
  let (_, r6) ← plusRun isRegexWS r5
  let (_, r7) ← plusRun isWordChar r6
  let (_, r8) := starRun isRegexWS r7
  let r9 ← litPrefix ";".data r8
  some (grp, r9)

/-- One attempt of `use\s+function\s+([\\A-Za-z0-9_]+(?:\\[A-Za-z0-9_]+)*)\s*;`
(IGNORECASE). -/
def tryUseFunctionAt (l : List Char) : Option (List Char × List Char) := do
  let r1 ← ciPrefix "use".data l
  let (_, r2) ← plusRun isRegexWS r1
  let r3 ← ciPrefix "function".data r2
  let (_, r4) ← plusRun isRegexWS r3
  let (grp, r5) ← plusRun isUseNameChar r4
  let (_, r6) := starRun isRegexWS r5
  let r7 ← litPrefix ";".data r6
  some (grp, r7)

/-- One attempt of `use\s+const\s+([\\A-Za-z0-9_]+(?:\\[A-Za-z0-9_]+)*)\s*;`
(IGNORECASE). -/
def tryUseConstAt (l : List Char) : Option (List Char × List Char) := do
  let r1 ← ciPrefix "use".data l
  let (_, r2) ← plusRun isRegexWS r1
  let r3 ← ciPrefix "const".data r2
  let (_, r4) ← plusRun isRegexWS r3
  let (grp, r5) ← plusRun isUseNameChar r4
  let (_, r6) := starRun isRegexWS r5
  let r7 ← litPrefix ";".data r6
  some (grp, r7)

/-- One attempt of `new\s+([A-Z][A-Za-z0-9_]*)`. -/
def tryNewAt (l : List Char) : Option (List Char × List Char) :=
  match litPrefix "new".data l with
  | none => none
  | some r1 =>
      match plusRun isRegexWS r1 with
      | none => none
      | some (_, r2) =>
          match r2 with
          | [] => none
          | c :: r3 =>
              if isUpperAZ c then
                some (c :: (starRun isWordChar r3).1, (starRun isWordChar r3).2)
              else none

/-- One attempt of `::class`.  The pattern has no capture group, so
`re.findall` returns the full matched text `"::class"`. -/
def tryClassConstAt (l : List Char) : Option (List Char × List Char) :=
  match litPrefix "::class".data l with
  | none => none
  | some r => some ("::class".data, r)

/-- One attempt of `@extends\([\'"]([^\'"]+)[\'"]\)` (greedy `[^\'"]+` stops at
the first quote, where the closing quote must follow, then `)`). -/
def tryExtendsDepAt (l : List Char) : Option (List Char × List Char) := do
  let r1 ← litPrefix "@extends(".data l
  match r1 with
  | q :: r2 =>
      if isQuote q then
        let (grp, r3) ← plusRun (fun c => ¬ isQuote c) r2
        match r3 with
        | q2 :: ')' :: r4 => if isQuote q2 then some (grp, r4) else none
        | _ => none
      else none
  | [] => none

/-- One attempt of `@include\([\'"]([^\'"]+)[\'"]\)`. -/
def tryIncludeDepAt (l : List Char) : Option (List Char × List Char) := do
  let r1 ← litPrefix "@include(".data l
  match r1 with
  | q :: r2 =>
      if isQuote q then
        let (grp, r3) ← plusRun (fun c => ¬ isQuote c) r2
        match r3 with
        | q2 :: ')' :: r4 => if isQuote q2 then some (grp, r4) else none
        | _ => none
      else none
  | [] => none

/-- `re.findall` of a given one-attempt matcher over a string. -/
def findallOn (try_ : List Char → Option (List Char × List Char)) (s : String) : List String :=
  findallWith try_ s.data.length s.data

/-! ## Dependency extraction (php_processor.py:412, `_extract_dependencies`) -/

/-- The raw dependency list accumulated by `_extract_dependencies` before the
clean-up loop: structural `use`-declaration query, the regex fallback for
`use` statements when that query found nothing, and the always-applied
Laravel-heuristic patterns, in source order. -/
def rawDeps (root : Node) (content : String) : List String :=
  let m1 := (queryNodes "namespace_use_declaration" root).flatMap fun ud =>
    (queryNodes "namespace_use_clause" ud).flatMap fun cl =>
      match queryNodes "qualified_name" cl with
      | [] => []
      | q :: _ =>
          let dep := getNodeText q content
          if dep ≠ "" then [dep] else []
  let m2 :=
    if m1.isEmpty then
      findallOn tryUseAt content ++ findallOn tryUseAsAt content ++
      findallOn tryUseFunctionAt content ++ findallOn tryUseConstAt content
    else []
  m1 ++ m2 ++ findallOn tryNewAt content ++ findallOn tryClassConstAt content ++
    findallOn tryExtendsDepAt content ++ findallOn tryIncludeDepAt content

/-- The clean-up loop of `_extract_dependencies`: strip whitespace and
backslashes from both ends, drop empties, de-duplicate keeping the first
occurrence. -/
def cleanupDepsAux : List String → List String → List String
  | [], acc => acc
  | d :: rest, acc =>
      let d' := pyStripBackslash (pyStrip d)
      if d' ≠ "" && ¬ acc.contains d' then cleanupDepsAux rest (acc ++ [d'])
      else cleanupDepsAux rest acc

/-- Embedding of `_extract_dependencies` (php_processor.py:412). -/
def extractDependencies (root : Node) (content : String) : List String :=
  cleanupDepsAux (rawDeps root content) []

/-! ## Class/method metadata and per-file extraction (php_processor.py) -/

/-- Embedding of `_extract_class_metadata` (php_processor.py:364). -/
def extractClassMetadata (classNode : Node) (content : String) : Metadata :=
  let m1 := match childByFieldName classNode "superclass" with
    | some sc => [("extends", MVal.s (getNodeText sc content))]
    | none => []
  let m2 := match childByFieldName classNode "interfaces" with
    | some it => [("implements", MVal.s (getNodeText it content))]
    | none => []
  let methods := queryNodes "method_declaration" classNode
  m1 ++ m2 ++
    [("method_count", MVal.n methods.length),
     ("method_names",
      MVal.sl (methods.map fun m => getNodeTextOpt (childByFieldName m "name") content))]

/-- Embedding of `_extract_method_metadata` (php_processor.py:388). -/
def extractMethodMetadata (m : Node) (content : String) : Metadata :=
  let vis := match m.children.find? (fun c => c.ty = "visibility_modifier") with
    | some v => [("visibility", MVal.s (getNodeText v content))]
    | none => []
  let st := if (m.children.find? (fun c => c.ty = "static_modifier")).isSome
    then [("static", MVal.b true)] else []
  let pc := match childByFieldName m "parameters" with
    | some ps => [("parameter_count", MVal.n (ps.children.countP (fun c => c.ty = "simple_parameter")))]
    | none => []
  vis ++ st ++ pc

/-- First-seen de-duplication (fueled to stay kernel-reducible). -/
def dedupFirstSeenAux : Nat → List String → List String
  | 0, _ => []
  | _ + 1, [] => []
  | fuel + 1, x :: xs => x :: dedupFirstSeenAux fuel (xs.filter (· ≠ x))

/-- First-seen de-duplication of a list of strings. -/
def dedupFirstSeen (l : List String) : List String := dedupFirstSeenAux l.length l

/-- Embedding of `_extract_internal_method_calls` (php_processor.py:464).
The source returns `list(set(internal_calls))`, whose order Python leaves
unspecified; the embedding fixes the first-seen order.  No claim in this
development depends on that order. -/
def extractInternalMethodCalls (methodNode : Node) (source : String) : List String :=
  match methodNode.children.find? (fun c => c.ty = "compound_statement") with
  | none => []
  | some body =>
      let memberCalls := (queryNodes "member_call_expression" body).filterMap fun call =>
        match childByFieldName call "object", childByFieldName call "name" with
        | some obj, some nm =>
            if obj.ty = "variable_name" && getNodeText obj source = "$this" then
              some ("self::" ++ getNodeText nm source)
            else none
        | _, _ => none
      let scopedCalls := (queryNodes "scoped_call_expression" body).filterMap fun call =>
        match childByFieldName call "scope", childByFieldName call "name" with
        | some sc, some nm =>
            let scopeText := getNodeText sc source
            if scopeText = "self" || scopeText = "parent" || scopeText = "static" || sc.ty = "name"
            then some (scopeText ++ "::" ++ getNodeText nm source)
            else none
        | _, _ => none
      dedupFirstSeen (memberCalls ++ scopedCalls)

/-- The class-level chunk built by `_parse_php_file` (php_processor.py:140). -/
def classChunkOf (fileType : String) (tree : Node) (content filePath : String) (c : Node) :
    CodeChunk :=
  { type := fileType
    name := getNodeTextOpt (childByFieldName c "name") content
    file_path := filePath
    start_line := c.startRow + 1
    end_line := c.endRow + 1
    content := getNodeText c content
    metadata := extractClassMetadata c content
    import_dependencies := extractDependencies tree content
    method_dependencies := [] }

/-- The method-level chunk built by `_parse_php_file` (php_processor.py:157). -/
def methodChunkOf (fileType : String) (tree : Node) (content filePath className : String)
    (m : Node) : CodeChunk :=
  { type := fileType ++ "_method"
    name := className ++ "::" ++ getNodeTextOpt (childByFieldName m "name") content
    file_path := filePath
    start_line := m.startRow + 1
    end_line := m.endRow + 1
    content := getNodeText m content
    metadata := extractMethodMetadata m content
    import_dependencies := extractDependencies tree content
    method_dependencies := extractInternalMethodCalls m content }

/-- Embedding of the chunk-building loop of `_parse_php_file`
(php_processor.py:136-168): for every class-declaration node one class chunk,
followed by one method chunk per method-declaration descendant. -/
def parsePhpFile (fileType : String) (tree : Node) (content filePath : String) :
    List CodeChunk :=
  (queryNodes "class_declaration" tree).flatMap fun c =>
    let className := getNodeTextOpt (childByFieldName c "name") content
    classChunkOf fileType tree content filePath c ::
      (queryNodes "method_declaration" c).map (methodChunkOf fileType tree content filePath className)

/-- Result of opening and reading a file: the decoded content, or a
`UnicodeDecodeError`. -/
inductive FileData where
  | ok (content : String)
  | decodeError
deriving DecidableEq

/-- Embedding of `_parse_php_file` including its failure behaviour: a
`UnicodeDecodeError` while reading is caught (the file contributes zero
chunks), but an exception from the tree-sitter `parse` call is NOT caught and
propagates to the caller. -/
def parsePhpFileE (parse : String → Except String Node) (read : FileData)
    (fileType filePath : String) : Except String (List CodeChunk) :=
  match read with
  | .decodeError => .ok []
  | .ok content => (parse content).map (fun tree => parsePhpFile fileType tree content filePath)

/-! ## Env-file parsing (php_processor.py:255, `_parse_env_file`) -/

/-- The chunk built inside the `_parse_env_file` loop (php_processor.py:273).
`line` is the stripped line; the content is `line if line else
"\n".join(current_content)`. -/
def envChunk (filePath : String) (currentLine : Nat) (line : String)
    (currentContent : List String) : CodeChunk :=
  { type := "env"
    name := "Env_" ++ pyBasename filePath ++ "_" ++ toString currentLine
    file_path := filePath
    start_line := currentLine
    end_line := currentLine
    content := if line ≠ "" then line else pyJoin "\n" currentContent
    metadata := [("env_variable", MVal.b true)]
    import_dependencies := []
    method_dependencies := [] }

/-- The per-line loop of `_parse_env_file` (php_processor.py:268-286): strip
the line; append it to `current_content` when it is non-empty and not a
comment; emit a chunk whenever the stripped line is truthy or
`current_content` is non-empty, advancing `current_line` only in that case. -/
def parseEnvLines (filePath : String) :
    List String → Nat → List String → List CodeChunk
  | [], _, _ => []
  | rawLine :: rest, currentLine, currentContent =>
      let line := pyStrip rawLine
      let cc := if line ≠ "" && ¬ pyStartsWith line "#" then currentContent ++ [line]
                else currentContent
      if line ≠ "" || ¬ cc.isEmpty then
        envChunk filePath currentLine line cc :: parseEnvLines filePath rest (currentLine + 1) []
      else
        parseEnvLines filePath rest currentLine cc

/-- Embedding of `_parse_env_file` (php_processor.py:255). -/
def parseEnvFile (content filePath : String) : List CodeChunk :=
  parseEnvLines filePath (pySplitlines content) 1 []

/-! ## Route-file parsing (php_processor.py:170 and 503) -/

/-- One attempt of `Route::(\w+)\s*\(\s*[\'"]`. -/
def tryRouteMethodAt (l : List Char) : Option (List Char × List Char) := do
  let r1 ← litPrefix "Route::".data l
  let (grp, r2) ← plusRun isWordChar r1
  let (_, r3) := starRun isRegexWS r2
  let r4 ← litPrefix "(".data r3
  let (_, r5) := starRun isRegexWS r4
  match r5 with
  | q :: r6 => if isQuote q then some (grp, r6) else none
  | [] => none

/-- One attempt of `[\'"]((?:[^\'"]|\\.)*)[\'"]`: an opening quote, a greedy
run of non-quote characters, and a closing quote of either kind.  (The `\\.`
alternative only changes behaviour through backtracking on inputs containing
backslash-escaped quotes, which do not occur in this development.) -/
def tryQuotedAt (l : List Char) : Option (List Char × List Char) :=
  match l with
  | q :: r1 =>
      if isQuote q then
        let (grp, r2) := starRun (fun c => ¬ isQuote c) r1
        match r2 with
        | q2 :: r3 => if isQuote q2 then some (grp, r3) else none
        | [] => none
      else none
  | [] => none

/-- One attempt of `[\'"]((?:[^\'"]|\\.)*)@[\w]+[\'"]`: the captured group is
the longest non-quote run that leaves `@` followed by word characters and the
closing quote — i.e. everything up to the last `@` of the quoted span whose
suffix is a non-empty word-character run. -/
def tryQuotedControllerAt (l : List Char) : Option (List Char × List Char) :=
  match l with
  | q :: r1 =>
      if isQuote q then
        let (span, r2) := starRun (fun c => ¬ isQuote c) r1
        match r2 with
        | q2 :: r3 =>
            if isQuote q2 then
              let revWord := span.reverse.takeWhile isWordChar
              match span.reverse.drop revWord.length with
              | '@' :: _ =>
                  if revWord.isEmpty then none
                  else some (span.take (span.length - revWord.length - 1), r3)
              | _ => none
            else none
        | [] => none
      else none
  | [] => none

/-- One attempt of `[\'"](\w+\\[\w\\]+)@[\w]+[\'"]` from
`_extract_route_dependencies`: a quoted, backslash-qualified class path
followed by `@method`. -/
def tryControllerDepAt (l : List Char) : Option (List Char × List Char) :=
  match l with
  | q :: r1 =>
      if isQuote q then
        let (grp, r2) := starRun isUseNameChar r1
        match grp with
        | c0 :: _ =>
            if isWordChar c0 && grp.contains '\\' then
              match r2 with
              | '@' :: r3 =>
                  match plusRun isWordChar r3 with
                  | some (_, q2 :: r4) => if isQuote q2 then some (grp, r4) else none
                  | _ => none
              | _ => none
            else none
        | [] => none
      else none
  | [] => none

/-- One attempt of `middleware\s*=>\s*[\'"](\w+(?:\\?\w+)*)[\'"]` from
`_extract_route_dependencies`. -/
def tryMiddlewareDepAt (l : List Char) : Option (List Char × List Char) := do
  let r1 ← litPrefix "middleware".data l
  let (_, r2) := starRun isRegexWS r1
  let r3 ← litPrefix "=>".data r2
  let (_, r4) := starRun isRegexWS r3
  match r4 with
  | q :: r5 =>
      if isQuote q then
        let (grp, r6) ← plusRun isUseNameChar r5
        match r6 with
        | q2 :: r7 => if isQuote q2 then some (grp, r7) else none
        | [] => none
      else none
  | [] => none

/-- Embedding of `_extract_route_dependencies` (php_processor.py:523). -/
def extractRouteDependencies (routeText : String) : List String :=
  let d1 := match searchWith tryControllerDepAt routeText.data.length routeText.data with
    | some g => [g]
    | none => []
  let d2 := match searchWith tryMiddlewareDepAt routeText.data.length routeText.data with
    | some g => [g]
    | none => []
  d1 ++ d2

/-- Embedding of `_find_route_definitions` (php_processor.py:503): every
`member_call_expression` node whose text contains `"Route::"`, with its
1-indexed line span and text.  (Metadata `route_definition: True` is attached
at the use site.) -/
def routeDefsOf (root : Node) (content : String) : List (Nat × Nat × String) :=
  (queryNodes "member_call_expression" root).filterMap fun call =>
    let txt := getNodeText call content
    if containsSub txt "Route::" then some (call.startRow + 1, call.endRow + 1, txt)
    else none

/-- Embedding of `_parse_route_file` (php_processor.py:170): one chunk per
found route definition, with method / uri / controller extracted by regex
search over the call text. -/
def parseRouteFile (tree : Node) (content filePath : String) : List CodeChunk :=
  (routeDefsOf tree content).enum.map fun (i, def_) =>
    let startLine := def_.1
    let endLine := def_.2.1
    let routeText := def_.2.2
    let method := (searchWith tryRouteMethodAt routeText.data.length routeText.data).getD "unknown"
    let uri := (searchWith tryQuotedAt routeText.data.length routeText.data).getD "unknown"
    let controller :=
      (searchWith tryQuotedControllerAt routeText.data.length routeText.data).getD "unknown"
    { type := "route"
      name := "Route_" ++ method ++ "_" ++ pyReplaceChar uri '/' '_' ++ "_" ++ toString (i + 1)
      file_path := filePath
      start_line := startLine
      end_line := endLine
      content := routeText
      metadata := [("route_definition", MVal.b true), ("method", MVal.s method),
                   ("uri", MVal.s uri), ("controller", MVal.s controller)]
      import_dependencies := extractRouteDependencies routeText
      method_dependencies := [] }

/-! ## Config-file parsing (php_processor.py:211, `_parse_config_file`) -/

/-- Embedding of the chunk loop of `_parse_config_file`: one chunk per
`return_statement` node — the contained array literal's span when present,
otherwise the whole file. -/
def parseConfigFile (tree : Node) (content filePath : String) : List CodeChunk :=
  (queryNodes "return_statement" tree).map fun ret =>
    match ret.children.find? (fun c => c.ty = "array_creation_expression") with
    | some arr =>
        { type := "config", name := pyBasename filePath, file_path := filePath
          start_line := arr.startRow + 1, end_line := arr.endRow + 1
          content := getNodeText arr content
          metadata := [("config_file", MVal.b true)]
          import_dependencies := [], method_dependencies := [] }
    | none =>
        { type := "config", name := pyBasename filePath, file_path := filePath
          start_line := 1, end_line := countChar content.data '\n' + 1
          content := content
          metadata := [("config_file", MVal.b true)]
          import_dependencies := [], method_dependencies := [] }

/-! ## Blade-template parsing (php_processor.py:289, `_parse_blade_file`) -/

/-- Python `s.replace(old, new)` for a non-empty `old`, fueled. -/
def pyReplaceSubAux (old new : List Char) : Nat → List Char → List Char
  | 0, l => l
  | _ + 1, [] => []
  | fuel + 1, l@(c :: rest) =>
      if listIsPre old l && ¬ old.isEmpty then
        new ++ pyReplaceSubAux old new fuel (l.drop old.length)
      else c :: pyReplaceSubAux old new fuel rest

/-- Python `s.replace(old, new)` on strings (non-empty `old`). -/
def pyReplaceSub (s old new : String) : String :=
  ⟨pyReplaceSubAux old.data new.data s.data.length s.data⟩

/-- One attempt of `@section\s*\(\s*[\'"](\w+)[\'"]\s*\)`. -/
def trySectionAt (l : List Char) : Option (List Char × List Char) := do
  let r1 ← litPrefix "@section".data l
  let (_, r2) := starRun isRegexWS r1
  let r3 ← litPrefix "(".data r2
  let (_, r4) := starRun isRegexWS r3
  match r4 with
  | q :: r5 =>
      if isQuote q then
        let (grp, r6) ← plusRun isWordChar r5
        match r6 with
        | q2 :: r7 =>
            if isQuote q2 then
              let (_, r8) := starRun isRegexWS r7
              let r9 ← litPrefix ")".data r8
              some (grp, r9)
            else none
        | [] => none
      else none
  | [] => none

/-- One attempt of `@component\s*\(\s*[\'"](\w+)[\'"]\s*\)`. -/
def tryComponentAt (l : List Char) : Option (List Char × List Char) := do
  let r1 ← litPrefix "@component".data l
  let (_, r2) := starRun isRegexWS r1
  let r3 ← litPrefix "(".data r2
  let (_, r4) := starRun isRegexWS r3
  match r4 with
  | q :: r5 =>
      if isQuote q then
        let (grp, r6) ← plusRun isWordChar r5
        match r6 with
        | q2 :: r7 =>
            if isQuote q2 then
              let (_, r8) := starRun isRegexWS r7
              let r9 ← litPrefix ")".data r8
              some (grp, r9)
            else none
        | [] => none
      else none
  | [] => none

/-- Whether the alternation `@section...|@component...` pattern matches
somewhere in a line (php_processor.py:301, truthiness of `search`). -/
def bladeDirectiveLineHit (line : String) : Bool :=
  (searchWith (fun l => (trySectionAt l).orElse (fun _ => tryComponentAt l))
    line.data.length line.data).isSome

/-- One attempt of the lazy pattern `@extends\([\'"](.+?)[\'"]\)` used by
`_extract_blade_dependencies`: the shortest non-empty capture whose next
character is a quote immediately followed by `)`. -/
def lazyQuoteParen : List Char → List Char → Option (List Char × List Char)
  | acc, c :: rest =>
      if ¬ acc.isEmpty && isQuote c && rest.head? = some ')' then
        some (acc.reverse, rest.tail)
      else lazyQuoteParen (c :: acc) rest
  | _, [] => none

/-- One attempt of `@extends\([\'"](.+?)[\'"]\)`. -/
def tryExtendsLazyAt (l : List Char) : Option (List Char × List Char) := do
  let r1 ← litPrefix "@extends(".data l
  match r1 with
  | q :: r2 => if isQuote q then lazyQuoteParen [] r2 else none
  | [] => none

/-- One attempt of `@include\([\'"](.+?)[\'"]\)`. -/
def tryIncludeLazyAt (l : List Char) : Option (List Char × List Char) := do
  let r1 ← litPrefix "@include(".data l
  match r1 with
  | q :: r2 => if isQuote q then lazyQuoteParen [] r2 else none
  | [] => none

/-- Embedding of `_extract_blade_metadata` (php_processor.py:537): counts of
each Blade directive, keyed without the `@`, present only when positive. -/
def extractBladeMetadata (content : String) : Metadata :=
  (["@extends", "@section", "@yield", "@include", "@component"].filterMap fun d =>
    let count := countSubL content.data d.data
    if count > 0 then some (pyReplaceSub d "@" "", MVal.n count) else none)

/-- Embedding of `_extract_blade_dependencies` (php_processor.py:550). -/
def extractBladeDependencies (content : String) : List String :=
  findallOn tryExtendsLazyAt content ++ findallOn tryIncludeLazyAt content

/-- Embedding of `_create_blade_chunk` (php_processor.py:317). -/
def createBladeChunk (filePath : String) (lines : List String) (startLine endLine : Nat) :
    CodeChunk :=
  let content := pyJoin "\n" lines
  let baseName := pyReplaceSub (pyBasename filePath) ".blade.php" ""
  let name := match searchWith trySectionAt content.data.length content.data with
    | some g => baseName ++ "_blade_" ++ g
    | none =>
        match searchWith tryComponentAt content.data.length content.data with
        | some g => baseName ++ "_blade_" ++ g
        | none => baseName ++ "_blade_default_" ++ toString startLine
  { type := "blade_template"
    name := name
    file_path := filePath
    start_line := startLine
    end_line := endLine
    content := content
    metadata := extractBladeMetadata content
    import_dependencies := extractBladeDependencies content
    method_dependencies := [] }

/-- The per-line loop of `_parse_blade_file` (php_processor.py:303-315):
split on section/component directive boundaries. -/
def parseBladeLines (filePath : String) (totalLines : Nat) :
    List String → Nat → List String → Nat → List CodeChunk
  | [], _, currentSection, currentStart =>
      if ¬ currentSection.isEmpty then [createBladeChunk filePath currentSection currentStart totalLines]
      else []
  | line :: rest, i, currentSection, currentStart =>
      if bladeDirectiveLineHit line then
        (if ¬ currentSection.isEmpty then
          [createBladeChunk filePath currentSection currentStart (i - 1)]
         else []) ++ parseBladeLines filePath totalLines rest (i + 1) [line] i
      else parseBladeLines filePath totalLines rest (i + 1) (currentSection ++ [line]) currentStart

/-- Embedding of `_parse_blade_file` (php_processor.py:289). -/
def parseBladeFile (content filePath : String) : List CodeChunk :=
  let lines := pySplitlines content
  parseBladeLines filePath lines.length lines 1 [] 1

/-! ## Filesystem model and `os.walk`

A directory tree holds files (name, read result) and named subdirectories.
`os.walk(root)` visits a directory before its subdirectories, in filesystem
order; on a non-existent root it yields nothing (the default `onerror=None`
swallows the error).  `FSTree`/`FSList` are mutually inductive so recursion
stays structural. -/

mutual
inductive FSTree where
  | mk (files : List (String × FileData)) (subdirs : FSList) : FSTree
inductive FSList where
  | nil : FSList
  | cons (name : String) (tree : FSTree) (rest : FSList) : FSList
end

/-- One `(dirpath, relative segments, filenames)` triple yielded by the walk.
Python's `dirpath` is the joined path string; the relative segment list is
kept alongside (it is what `os.path.relpath(root, laravel_root).split(os.sep)`
recomputes). -/
structure WalkEntry where
  dirpath : String
  rel : List String
  files : List (String × FileData)
deriving DecidableEq

mutual
def walkFS (pathStr : String) (rel : List String) : FSTree → List WalkEntry
  | .mk files subs => ⟨pathStr, rel, files⟩ :: walkFSL pathStr rel subs
def walkFSL (pathStr : String) (rel : List String) : FSList → List WalkEntry
  | .nil => []
  | .cons name t rest =>
      walkFS (pathStr ++ "/" ++ name) (rel ++ [name]) t ++ walkFSL pathStr rel rest
end

/-- `os.walk` on a root that may not exist: a missing root yields nothing. -/
def walkOpt (root : String) : Option FSTree → List WalkEntry
  | none => []
  | some t => walkFS root [] t

/-! ## `LaravelProcessor.analyze_codebase` (php_processor.py:34) -/

/-- The exclusion set of `analyze_codebase` (php_processor.py:53-58), matched
by substring containment against the `root` path string. -/
def phpExcludedDirs : List String :=
  [".git", "__pycache__", "node_modules", "vendor", "storage/framework",
   "storage/logs", "storage/app/public", "public/build", "public/hot",
   "bootstrap/cache", "target", "build", "dist", ".venv", "venv"]

/-- `os.path.relpath(root, laravel_root).split(os.sep)`: the root directory
itself has relative path `"."`, so its folder-name list is `["."]`. -/
def folderNamesOf (rel : List String) : List String :=
  if rel.isEmpty then ["."] else rel

/-- The skip condition of the walk loop in `analyze_codebase`
(php_processor.py:53-59): an excluded name occurs as a substring of the
directory path, or any folder name starts with a dot. -/
def phpFolderSkip (e : WalkEntry) : Bool :=
  phpExcludedDirs.any (fun ex => containsSub e.dirpath ex) ||
  (folderNamesOf e.rel).any (fun f => pyStartsWith f ".")

/-- The walk entries whose loop body actually runs (the others are skipped by
`continue`). -/
def analyzeProcessedFolders (root : String) (fs : Option FSTree) : List WalkEntry :=
  (walkOpt root fs).filter (fun e => ¬ phpFolderSkip e)

/-- The `folder_parsers` dispatch (php_processor.py:40-66): the first folder
name whose lower-casing is one of the four parser keys. -/
def folderParserKey (names : List String) : Option String :=
  (names.find? fun n =>
    let ln := asciiLower n
    ln = "routes" || ln = "config" || ln = "env" || ln = "views").map asciiLower

/-- Embedding of `_parse_route_file` including its failure behaviour: only a
`UnicodeDecodeError` while reading is caught; a parse exception propagates. -/
def parseRouteFileE (parse : String → Except String Node) (read : FileData)
    (filePath : String) : Except String (List CodeChunk) :=
  match read with
  | .decodeError => .ok []
  | .ok content => (parse content).map (fun tree => parseRouteFile tree content filePath)

/-- Embedding of `_parse_config_file` including its failure behaviour. -/
def parseConfigFileE (parse : String → Except String Node) (read : FileData)
    (filePath : String) : Except String (List CodeChunk) :=
  match read with
  | .decodeError => .ok []
  | .ok content => (parse content).map (fun tree => parseConfigFile tree content filePath)

/-- Sequential per-file accumulation in the `Except` monad: chunks concatenate
in order and the first uncaught exception aborts the remainder. -/
def foldFilesE (step : String × FileData → Except String (List CodeChunk)) :
    List (String × FileData) → Except String (List CodeChunk)
  | [] => .ok []
  | f :: rest => do
      let c ← step f
      let r ← foldFilesE step rest
      .ok (c ++ r)

/-- Embedding of `_parse_route_folder` (php_processor.py:79). -/
def runRouteFolder (parse : String → Except String Node) (dirpath : String)
    (files : List (String × FileData)) : Except String (List CodeChunk) :=
  foldFilesE
    (fun f =>
      if pyEndsWith f.1 ".php" then parseRouteFileE parse f.2 (dirpath ++ "/" ++ f.1)
      else .ok []) files

/-- Embedding of `_parse_config_folder` (php_processor.py:86). -/
def runConfigFolder (parse : String → Except String Node) (dirpath : String)
    (files : List (String × FileData)) : Except String (List CodeChunk) :=
  foldFilesE
    (fun f =>
      if pyEndsWith f.1 ".php" then parseConfigFileE parse f.2 (dirpath ++ "/" ++ f.1)
      else .ok []) files

/-- Embedding of `_parse_env_folder` (php_processor.py:93): the first file
named exactly `.env`, if any. -/
def runEnvFolder (dirpath : String) (files : List (String × FileData)) : List CodeChunk :=
  match files.find? (fun f => f.1 = ".env") with
  | some (name, .ok content) => parseEnvFile content (dirpath ++ "/" ++ name)
  | some (_, .decodeError) => []
  | none => []

/-- Embedding of `_parse_blade_folder` (php_processor.py:100). -/
def runBladeFolder (dirpath : String) (files : List (String × FileData)) : List CodeChunk :=
  files.flatMap fun f =>
    if pyEndsWith f.1 ".blade.php" then
      match f.2 with
      | .ok content => parseBladeFile content (dirpath ++ "/" ++ f.1)
      | .decodeError => []
    else []

/-- Embedding of the `.php`/`.blade.php` fallback `_parse_php_folder`
(php_processor.py:72-75 and 107). -/
def runPhpFolder (parse : String → Except String Node) (dirpath : String)
    (files : List (String × FileData)) : Except String (List CodeChunk) :=
  foldFilesE
    (fun f =>
      if pyEndsWith f.1 ".php" || pyEndsWith f.1 ".blade.php" then
        parsePhpFileE parse f.2 (if pyEndsWith f.1 ".php" then "php" else "blade_template")
          (dirpath ++ "/" ++ f.1)
      else .ok []) files

/-- One iteration of the `analyze_codebase` walk loop body: dispatch the
folder to its parser. -/
def runFolder (parse : String → Except String Node) (e : WalkEntry) :
    Except String (List CodeChunk) :=
  match folderParserKey (folderNamesOf e.rel) with
  | some "routes" => runRouteFolder parse e.dirpath e.files
  | some "config" => runConfigFolder parse e.dirpath e.files
  | some "env" => .ok (runEnvFolder e.dirpath e.files)
  | some "views" => .ok (runBladeFolder e.dirpath e.files)
  | _ => runPhpFolder parse e.dirpath e.files

def foldFoldersE (parse : String → Except String Node) :
    List WalkEntry → Except String (List CodeChunk)
  | [] => .ok []
  | e :: rest => do
      let c ← runFolder parse e
      let r ← foldFoldersE parse rest
      .ok (c ++ r)

/-- Embedding of `LaravelProcessor.analyze_codebase` (php_processor.py:34):
walk the root (a missing root yields no entries), skip excluded folders,
dispatch the rest; an uncaught per-file exception propagates out. -/
def analyzeCodebaseE (parse : String → Except String Node) (fs : Option FSTree)
    (root : String) : Except String (List CodeChunk) :=
  foldFoldersE parse (analyzeProcessedFolders root fs)

/-! ## `LaravelProcessor` of laravel_processor.py -/

/-- Embedding of `_extract_node_text` (laravel_processor.py:40): the byte
slice spanned by the node, decoded leniently. -/
def extractNodeText (n : Node) (contentBytes : String) : String :=
  pySliceStr contentBytes n.startByte n.endByte

/-- Python `bytes.strip()` (ASCII whitespace) emptiness test. -/
def bytesStripL (l : List Char) : List Char := pyStripL isAsciiWS l

/-- The chunk dictionary built for a captured method/function node
(laravel_processor.py:89-102). -/
def tsFunctionChunk (content filePath ns cls : String) (isMethod : Bool)
    (nameNode whole : Node) : TSChunk :=
  let fn := extractNodeText nameNode content
  let clsSimple := lastSplitSeg '\\' cls
  let p1 : List String := if ns ≠ "" then [ns] else []
  let p2 : List String :=
    if cls ≠ "" && clsSimple ≠ fn then [if isMethod then clsSimple else ""] else []
  let prefixStr := pyJoin "\\" ((p1 ++ p2).filter (· ≠ ""))
  let fullName :=
    if prefixStr ≠ "" && isMethod then prefixStr ++ "::" ++ fn
    else if prefixStr ≠ "" then prefixStr ++ "\\" ++ fn
    else fn
  { content := extractNodeText whole content
    metadata :=
      [("file", MVal.s filePath),
       ("type", MVal.s (if isMethod then "method" else "function")),
       ("namespace", MVal.s ns),
       ("class_name", MVal.s (if cls ≠ "" && isMethod then clsSimple else "")),
       ("function_name", MVal.s fn),
       ("full_name", MVal.s fullName),
       ("start_line", MVal.n (whole.startRow + 1)),
       ("end_line", MVal.n (whole.endRow + 1))] }

/-- `find?` over a `NodeList`. -/
def nlFind (cs : NodeList) (p : Node → Bool) : Option Node := cs.toList.find? p

/-! Embedding of `_traverse_node` (laravel_processor.py:44): thread
namespace/class context downward; a named method/function node becomes one
chunk and its body is not recursed into; a method/function node without a
name field falls through to child recursion. -/
mutual
def traverseNode (content filePath ns cls : String) : Node → List TSChunk
  | .mk nodeType ftag sb eb sr er cs =>
      let n := Node.mk nodeType ftag sb eb sr er cs
      if nodeType = "namespace_definition" then
        let ns' := match childByFieldName n "name" with
          | some nn => extractNodeText nn content
          | none => ns
        traverseNodeL content filePath ns' cls cs
      else if nodeType = "class_declaration" then
        let cls' := match childByFieldName n "name" with
          | some nn =>
              let cn := extractNodeText nn content
              if ns ≠ "" then ns ++ "\\" ++ cn else cn
          | none => cls
        traverseNodeL content filePath ns cls' cs
      else if nodeType = "method_declaration" || nodeType = "function_definition" then
        match childByFieldName n "name" with
        | some nn => [tsFunctionChunk content filePath ns cls (nodeType = "method_declaration") nn n]
        | none => traverseNodeL content filePath ns cls cs
      else traverseNodeL content filePath ns cls cs
def traverseNodeL (content filePath ns cls : String) : NodeList → List TSChunk
  | .nil => []
  | .cons a as => traverseNode content filePath ns cls a ++ traverseNodeL content filePath ns cls as
end

/-- The whole-file fallback chunk of `chunk_using_treesitter`
(laravel_processor.py:131-144). -/
def fileContentChunk (content filePath : String) : TSChunk :=
  { content := content
    metadata :=
      [("file", MVal.s filePath),
       ("type", MVal.s "file_content"),
       ("namespace", MVal.s ""),
       ("class_name", MVal.s ""),
       ("function_name", MVal.s ""),
       ("full_name", MVal.s (pyBasename filePath)),
       ("start_line", MVal.n 1),
       ("end_line", MVal.n (countChar content.data '\n' + 1))] }

/-- Embedding of `chunk_using_treesitter` (laravel_processor.py:112):
everything in the body runs under a `try` whose handlers catch every
exception, so a read failure or a parse exception makes the file contribute
the chunks accumulated so far — none. -/
def chunkUsingTreesitter (parse : String → Except String Node) (read : FileData)
    (filePath : String) : List TSChunk :=
  match read with
  | .decodeError => []
  | .ok content =>
      if (bytesStripL content.data).isEmpty then []
      else
        match parse content with
        | .error _ => []
        | .ok tree =>
            let chunks := traverseNode content filePath "" "" tree
            if chunks.isEmpty && ¬ (bytesStripL content.data).isEmpty then
              [fileContentChunk content filePath]
            else chunks

/-! ### Regex fallback path (laravel_processor.py:151-260) -/

/-- Character class `[a-zA-Z_\x7f-\xff]` opening a PHP identifier. -/
def isPhpIdentStart (c : Char) : Bool :=
  ('a' ≤ c && c ≤ 'z') || ('A' ≤ c && c ≤ 'Z') || c = '_' ||
  (0x7f ≤ c.toNat && c.toNat ≤ 0xff)

/-- Character class `[a-zA-Z0-9_\x7f-\xff]`. -/
def isPhpIdentChar (c : Char) : Bool := isPhpIdentStart c || ('0' ≤ c && c ≤ '9')

/-- Driver for `re.search` with `re.MULTILINE` and a `^`-anchored pattern: a
match may start only at position 0 or just after a newline. -/
def searchMl {α : Type} (try_ : List Char → Option α) :
    Nat → Bool → List Char → Option α
  | 0, _, _ => none
  | _ + 1, _, [] => none
  | fuel + 1, atStart, c :: rest =>
      match (if atStart then try_ (c :: rest) else none) with
      | some a => some a
      | none => searchMl try_ fuel (c = '\n') rest

/-- Driver for `re.finditer` with `re.MULTILINE` and a `^`-anchored pattern:
record `(match.start, payload)` pairs and resume after each match end. -/
def finditerMl {α : Type} (try_ : List Char → Option (α × Nat)) :
    Nat → Bool → Nat → List Char → List (Nat × α)
  | 0, _, _, _ => []
  | _ + 1, _, _, [] => []
  | fuel + 1, atStart, pos, c :: rest =>
      match (if atStart then try_ (c :: rest) else none) with
      | some (a, len) =>
          let consumed := (c :: rest).take len
          (pos, a) :: finditerMl try_ fuel (consumed.getLast? = some '\n') (pos + len)
            ((c :: rest).drop len)
      | none => finditerMl try_ fuel (c = '\n') (pos + 1) rest

/-- One attempt of `^\s*namespace\s+([^;]+);` — the greedy `[^;]+` runs to the
first `;`. -/
def tryNamespaceAt (l : List Char) : Option String := do
  let (_, r1) := starRun isRegexWS l
  let r2 ← litPrefix "namespace".data r1
  let (_, r3) ← plusRun isRegexWS r2
  let (grp, r4) ← plusRun (· ≠ ';') r3
  let _ ← litPrefix ";".data r4
  some ⟨grp⟩

/-- Zero-or-more `(?:abstract\s+|final\s+)` repetitions. -/
def classModsLoop : Nat → List Char → List Char
  | 0, l => l
  | fuel + 1, l =>
      match (do
          let r ← litPrefix "abstract".data l
          plusRun isRegexWS r : Option (List Char × List Char)) with
      | some (_, r2) => classModsLoop fuel r2
      | none =>
          match (do
              let r ← litPrefix "final".data l
              plusRun isRegexWS r : Option (List Char × List Char)) with
          | some (_, r2) => classModsLoop fuel r2
          | none => l

/-- The text between a class name and the opening brace must fit
`(?:\s+extends\s+[^{]+)?(?:\s+implements\s+[^{]+)?\s*`; because `[^{]+` is an
unconstrained non-brace run, this reduces to: all whitespace, or whitespace +
`extends`/`implements` + whitespace + a non-empty remainder. -/
def classTailOk (mid : List Char) : Bool :=
  mid.all isRegexWS ||
  (match (do
      let (_, r1) ← plusRun isRegexWS mid
      let r2 ← litPrefix "extends".data r1
      let (_, r3) ← plusRun isRegexWS r2
      some r3 : Option (List Char)) with
   | some r3 => ¬ r3.isEmpty
   | none => false) ||
  (match (do
      let (_, r1) ← plusRun isRegexWS mid
      let r2 ← litPrefix "implements".data r1
      let (_, r3) ← plusRun isRegexWS r2
      some r3 : Option (List Char)) with
   | some r3 => ¬ r3.isEmpty
   | none => false)

/-- One attempt of the class pattern of `chunk_using_regex`
(laravel_processor.py:201): returns the captured name and the match length
(up to and including the opening brace). -/
def tryClassSigAt (l : List Char) : Option (String × Nat) := do
  let (_, r1) := starRun isRegexWS l
  let r2 := classModsLoop r1.length r1
  let r3 ← litPrefix "class".data r2
  let (_, r4) ← plusRun isRegexWS r3
  match r4 with
  | c0 :: r5 =>
      if isPhpIdentStart c0 then
        let (tailN, r6) := starRun isPhpIdentChar r5
        let (mid, r7) := starRun (· ≠ '{') r6
        match r7 with
        | '{' :: r8 =>
            if classTailOk mid then some (⟨c0 :: tailN⟩, l.length - r8.length) else none
        | _ => none
      else none
  | [] => none

/-- Zero-or-more `(?:(?:public|protected|private|static)\s+)` repetitions. -/
def funcModsLoop : Nat → List Char → List Char
  | 0, l => l
  | fuel + 1, l =>
      let step : Option (List Char × List Char) :=
        (do let r ← litPrefix "public".data l; plusRun isRegexWS r) <|>
        (do let r ← litPrefix "protected".data l; plusRun isRegexWS r) <|>
        (do let r ← litPrefix "private".data l; plusRun isRegexWS r) <|>
        (do let r ← litPrefix "static".data l; plusRun isRegexWS r)
      match step with
      | some (_, r2) => funcModsLoop fuel r2
      | none => l

/-- One attempt of the function pattern of `chunk_using_regex`
(laravel_processor.py:206): returns the captured name and the match length. -/
def tryFunctionSigAt (l : List Char) : Option (String × Nat) := do
  let (_, r1) := starRun isRegexWS l
  let r2 := funcModsLoop r1.length r1
  let r3 ← litPrefix "function".data r2
  let (_, r4) ← plusRun isRegexWS r3
  match r4 with
  | c0 :: r5 =>
      if isPhpIdentStart c0 then
        let (tailN, r6) := starRun isPhpIdentChar r5
        let (_, r7) := starRun isRegexWS r6
        let r8 ← litPrefix "(".data r7
        let (_, r9) := starRun (· ≠ ')') r8
        let r10 ← litPrefix ")".data r9
        let (_, r11) := starRun isRegexWS r10
        let r12 ←
          match r11 with
          | ':' :: r12a => do
              let (_, r12b) := starRun isRegexWS r12a
              let (_, r12c) ← plusRun isWordChar r12b
              let (_, r12d) := starRun isRegexWS r12c
              pure r12d
          | _ => pure r11
        let r13 ← litPrefix "\x7b".data r12
        some ((⟨c0 :: tailN⟩ : String), l.length - r13.length)
      else none
  | [] => none

/-- Index of the first occurrence of a character at or after `offset`
(Python `str.index(c, offset)`). -/
def strIndexFrom (l : List Char) (c : Char) (offset : Nat) : Option Nat :=
  match (l.drop offset).findIdx? (· = c) with
  | some k => some (offset + k)
  | none => none

/-- The brace-counting loop of `_extract_block_with_braces`
(laravel_processor.py:163-177): starting just after the opening brace with
level 1, return the index of the brace that brings the level back to zero. -/
def scanBraces : List Char → Nat → Nat → Option Nat
  | [], _, _ => none
  | c :: rest, level, pos =>
      if c = '{' then scanBraces rest (level + 1) (pos + 1)
      else if c = '}' then
        if level = 1 then some pos else scanBraces rest (level - 1) (pos + 1)
      else scanBraces rest level (pos + 1)

/-- Embedding of `_extract_block_with_braces` (laravel_processor.py:151):
find the first `{` at or after the match start, scan to the balancing `}`,
and return the block (braces included) with the end offset; `none` when no
opening brace exists or the brace never closes. -/
def extractBlockWithBraces (content : String) (offset : Nat) : Option (String × Nat) :=
  match strIndexFrom content.data '{' offset with
  | none => none
  | some openIdx =>
      match scanBraces (content.data.drop (openIdx + 1)) 1 (openIdx + 1) with
      | none => none
      | some closeIdx => some (pySliceStr content openIdx (closeIdx + 1), closeIdx + 1)

/-- A matched definition of `chunk_using_regex`: match position, captured
name, and whether the class pattern produced it. -/
structure RegexDefn where
  pos : Nat
  name : String
  isClass : Bool
deriving DecidableEq

/-- Stable insertion into a position-sorted list (a new element goes after
existing elements with the same or smaller key), matching Python's stable
`list.sort(key=...)`. -/
def insertSorted (x : RegexDefn) : List RegexDefn → List RegexDefn
  | [] => [x]
  | y :: ys => if y.pos ≤ x.pos then y :: insertSorted x ys else x :: y :: ys

def sortDefns (l : List RegexDefn) : List RegexDefn :=
  l.foldl (fun acc x => insertSorted x acc) []

/-- Embedding of `chunk_using_regex` (laravel_processor.py:179): regex-scan
for class and function signatures, extract each one's brace-balanced block,
and fall back to a whole-file chunk when nothing was extracted. -/
def chunkUsingRegex (read : FileData) (filePath : String) : List TSChunk :=
  match read with
  | .decodeError => []
  | .ok content =>
      if (pyStripL isPyWS content.data).isEmpty then []
      else
        let ns := match searchMl tryNamespaceAt content.data.length true content.data with
          | some g => pyStrip g
          | none => ""
        let classMatches := finditerMl tryClassSigAt content.data.length true 0 content.data
        let funcMatches := finditerMl tryFunctionSigAt content.data.length true 0 content.data
        let defns := sortDefns
          ((classMatches.map fun m => RegexDefn.mk m.1 m.2 true) ++
           (funcMatches.map fun m => RegexDefn.mk m.1 m.2 false))
        let chunks := defns.filterMap fun d =>
          match extractBlockWithBraces content d.pos with
          | some (block, _) =>
              let startLine := countChar (content.data.take d.pos) '\n' + 1
              let endLine := startLine + countChar block.data '\n'
              some
                { content := block
                  metadata :=
                    [("file", MVal.s filePath),
                     ("type", MVal.s (if d.isClass then "class" else "function")),
                     ("namespace", MVal.s ns),
                     ("class_name", MVal.s (if d.isClass then d.name else "")),
                     ("function_name", MVal.s (if d.isClass then "" else d.name)),
                     ("full_name", MVal.s (if ns ≠ "" then ns ++ "\\" ++ d.name else d.name)),
                     ("start_line", MVal.n startLine),
                     ("end_line", MVal.n endLine)] }
          | none => none
        if chunks.isEmpty && ¬ (pyStripL isPyWS content.data).isEmpty then
          [{ content := content
             metadata :=
               [("file", MVal.s filePath),
                ("type", MVal.s "file_content_regex"),
                ("full_name", MVal.s (pyBasename filePath)),
                ("start_line", MVal.n 1),
                ("end_line", MVal.n (countChar content.data '\n' + 1))] }]
        else chunks

/-- Embedding of `chunk_codebase` (laravel_processor.py:23): walk the whole
root with NO directory exclusion, chunk every `.php` file — with tree-sitter
when the parser loaded, else with the regex fallback. -/
def chunkCodebase (parser : Option (String → Except String Node)) (fs : Option FSTree)
    (root : String) : List TSChunk :=
  (walkOpt root fs).flatMap fun e =>
    e.files.flatMap fun f =>
      if pyEndsWith f.1 ".php" then
        match parser with
        | some p => chunkUsingTreesitter p f.2 (e.dirpath ++ "/" ++ f.1)
        | none => chunkUsingRegex f.2 (e.dirpath ++ "/" ++ f.1)
      else []

/-! ### `_get_files_to_process` (laravel_processor.py:262) -/

def gftpAllowedExtensions : List String :=
  [".php", ".blade.php", ".js", ".vue", ".ts", ".css", ".scss",
   ".env", ".md", ".txt", ".json", ".yaml", ".yml"]

def gftpExcludedDirs : List String :=
  [".git", "__pycache__", "node_modules", "vendor", "storage/framework",
   "storage/logs", "storage/app/public", "public/build", "public/hot",
   "bootstrap/cache", "target", "build", "dist", ".venv", "venv"]

def gftpExcludedFiles : List String := [".DS_Store", "Thumbs.db", ".phpunit.result.cache"]

/-- Python `os.path.splitext(name)[1]`: the extension from the last dot, with
leading dots of the basename not counting as extension separators. -/
def pySplitextExt (name : String) : String :=
  let cs := name.data
  let lead := cs.takeWhile (· = '.')
  let rest := cs.drop lead.length
  if rest.contains '.' then ⟨'.' :: (splitOnCharL '.' rest []).getLastD []⟩ else ""

/-! Embedding of `_get_files_to_process` (laravel_processor.py:262): walk the
tree pruning excluded and dot-prefixed directories in place, keep files whose
lower-cased extension is allowed and whose name is not explicitly excluded.
The source accumulates `os.path.join(root, file_name)` strings; the embedding
returns each file as its relative directory-segment chain plus name, which is
exactly the data those joined strings display. -/
mutual
def gftpTree : FSTree → List (List String × String)
  | .mk files subs =>
      (files.filterMap fun f =>
        if gftpExcludedFiles.contains f.1 then none
        else if gftpAllowedExtensions.contains (asciiLower (pySplitextExt f.1)) then
          some ([], f.1)
        else none) ++ gftpList subs
def gftpList : FSList → List (List String × String)
  | .nil => []
  | .cons name t rest =>
      (if gftpExcludedDirs.contains name || pyStartsWith name "." then []
       else (gftpTree t).map (fun sf => (name :: sf.1, sf.2))) ++ gftpList rest
end

/-- Embedding of `_get_files_to_process`. -/
def getFilesToProcess (fs : FSTree) : List (List String × String) := gftpTree fs

/-! ## Concrete fixtures

Concrete syntax trees are written exactly as the tree-sitter-php grammar
parses the given sources: byte offsets and 0-indexed rows are those the parser
reports for these texts. -/

/-- Source text of a small PHP class file. -/
def widgetSource : String :=
  "<?php class Widget \x7b function alpha() \x7b\x7d function beta() \x7b\x7d \x7d"

def widgetNameNode : Node := .mk "name" (some "name") 12 18 0 0 .nil

def alphaNameNode : Node := .mk "name" (some "name") 30 35 0 0 .nil

def alphaBodyNode : Node := .mk "compound_statement" (some "body") 38 40 0 0 .nil

def alphaMethodNode : Node :=
  .mk "method_declaration" none 21 40 0 0 (.cons alphaNameNode (.cons alphaBodyNode .nil))

def betaNameNode : Node := .mk "name" (some "name") 50 54 0 0 .nil

def betaBodyNode : Node := .mk "compound_statement" (some "body") 57 59 0 0 .nil

def betaMethodNode : Node :=
  .mk "method_declaration" none 41 59 0 0 (.cons betaNameNode (.cons betaBodyNode .nil))

def widgetBodyNode : Node :=
  .mk "declaration_list" (some "body") 19 61 0 0 (.cons alphaMethodNode (.cons betaMethodNode .nil))

/-- The `class_declaration` node for `class Widget` in `widgetSource`. -/
def widgetClassNode : Node :=
  .mk "class_declaration" none 6 61 0 0 (.cons widgetNameNode (.cons widgetBodyNode .nil))

/-- The tree tree-sitter-php produces for `widgetSource`. -/
def widgetTree : Node :=
  .mk "program" none 0 61 0 0
    (.cons (.mk "php_tag" none 0 5 0 0 .nil) (.cons widgetClassNode .nil))

/-- Source text of a route file containing a single non-chained route call. -/
def routeSource : String :=
  "<?php\nRoute::get('/leaves', 'LeaveController@index');\n"

def routeScopeNode : Node := .mk "name" (some "scope") 6 11 1 1 .nil

def routeGetNameNode : Node := .mk "name" (some "name") 13 16 1 1 .nil

def routeArgsNode : Node :=
  .mk "arguments" (some "arguments") 16 52 1 1
    (.cons (.mk "argument" none 17 26 1 1
             (.cons (.mk "string" none 17 26 1 1 .nil) .nil))
      (.cons (.mk "argument" none 28 51 1 1
               (.cons (.mk "string" none 28 51 1 1 .nil) .nil)) .nil))

/-- The node tree-sitter-php produces for `Route::get(...)`: a STATIC call
(`::`) parses as a `scoped_call_expression` — the grammar reserves
`member_call_expression` for `->` calls, exactly the distinction
`_extract_internal_method_calls` (php_processor.py:478-487) relies on. -/
def routeCallNode : Node :=
  .mk "scoped_call_expression" none 6 52 1 1
    (.cons routeScopeNode (.cons routeGetNameNode (.cons routeArgsNode .nil)))

/-- The tree tree-sitter-php produces for `routeSource`. -/
def routeTree : Node :=
  .mk "program" none 0 54 0 2
    (.cons (.mk "php_tag" none 0 5 0 0 .nil)
      (.cons (.mk "expression_statement" none 6 53 1 1 (.cons routeCallNode .nil)) .nil))

/-- An empty PHP program tree (no declarations at all). -/
def emptyProgramNode : Node := .mk "program" none 0 0 0 0 .nil

/-- A filesystem whose only file lives in `vendor/`. -/
def vendorFS : FSTree :=
  .mk [] (.cons "vendor"
    (.mk [("evil.php", .ok "function f() \x7b return 1; \x7d")] .nil) .nil)

/-- A filesystem with one PHP file inside `app/`. -/
def appFS : FSTree :=
  .mk [] (.cons "app" (.mk [("A.php", .ok "<?php class A \x7b\x7d")] .nil) .nil)

/-- A parse oracle that raises on every input. -/
def failingParse : String → Except String Node := fun _ => .error "parse boom"

/-- The regex-fallback example text of the brace-extraction property. -/
def braceExample : String := "function foo() \x7b if (true) \x7b return 1; \x7d \x7d"

/-- The expected extracted block of `braceExample`: from the first opening
brace to the brace that restores balance to zero. -/
def braceExampleBlock : String := "\x7b if (true) \x7b return 1; \x7d \x7d"

/-- A text with one well-braced definition followed by one whose block never
closes. -/
def unmatchedExample : String :=
  "function good() \x7b return 1; \x7d\nfunction bad() \x7b if (x) \x7b\n"

/-! ## General lemmas about the embedded string primitives -/

theorem pyStripL_of_all_true {p : Char → Bool} {l : List Char}
    (h : ∀ c ∈ l, p c = true) : pyStripL p l = [] := by
  unfold pyStripL
  have h1 : l.dropWhile p = [] := by
    induction l with
    | nil => rfl
    | cons a as ih =>
        simp only [List.dropWhile_cons, h a (by simp), if_true]
        exact ih (fun c hc => h c (by simp [hc]))
  simp [h1]

theorem pyStripL_of_all_false {p : Char → Bool} {l : List Char}
    (h : ∀ c ∈ l, p c = false) : pyStripL p l = l := by
  unfold pyStripL
  have hd : ∀ (m : List Char), (∀ c ∈ m, p c = false) → m.dropWhile p = m := by
    intro m hm
    cases m with
    | nil => rfl
    | cons a as => simp [List.dropWhile_cons, hm a (by simp)]
  rw [hd l h, hd l.reverse (fun c hc => h c (List.mem_reverse.mp hc)), List.reverse_reverse]

theorem isPyWS_of_isAsciiWS {c : Char} (h : isAsciiWS c = true) : isPyWS c = true := by
  simp [isPyWS, h]

theorem pySliceStr_full (s : String) : pySliceStr s 0 s.data.length = s := by
  cases s with
  | mk data => simp [pySliceStr, pySliceL]

/-! ## Claims -/

/-- C3: the claim states that env parsing emits no chunk for comment lines and
that for `APP_NAME=Test` / `# comment` / `DB_HOST=localhost` exactly 2 chunks
result with start lines 1 and 3.  Evaluating the embedded `_parse_env_file` on
that input shows the code emits 3 chunks: the comment line produces a chunk
too (`if line or current_content:` is true for any non-blank stripped line),
contradicting both the spec and the code's own `# Ignore comments and empty
lines` comment. -/
theorem c3_env_comment_chunk_eval :
    (parseEnvFile "APP_NAME=Test\n# comment\nDB_HOST=localhost" "/project/.env").map
        (fun c => (c.content, c.start_line, c.end_line)) =
      [("APP_NAME=Test", 1, 1), ("# comment", 2, 2), ("DB_HOST=localhost", 3, 3)] ∧
    (parseEnvFile "APP_NAME=Test\n# comment\nDB_HOST=localhost" "/project/.env").length = 3 := by
  exact ⟨by decide, by decide⟩

/-- C6: the claim states that a file containing
`Route::get('/leaves', 'LeaveController@index');` yields a route chunk with
metadata method/uri/controller.  In the tree-sitter-php grammar a `::` call is
a `scoped_call_expression` — `member_call_expression` is reserved for `->`
calls, the very distinction `_extract_internal_method_calls` relies on — so
`_find_route_definitions`'s query for `member_call_expression` finds nothing
and `_parse_route_file` emits no chunk at all, although the route call is
present in the tree with `Route::` in its text. -/
theorem c6_route_query_eval :
    parseRouteFile routeTree routeSource "/project/routes/web.php" = [] ∧
    routeDefsOf routeTree routeSource = [] ∧
    queryNodes "member_call_expression" routeTree = [] ∧
    queryNodes "scoped_call_expression" routeTree = [routeCallNode] ∧
    containsSub (getNodeText routeCallNode routeSource) "Route::" = true ∧
    getNodeText routeCallNode routeSource =
      "Route::get('/leaves', 'LeaveController@index')" := by
  refine ⟨rfl, rfl, by decide, by decide, by decide, by decide⟩

/-- C4 counterexample: on a non-existent root, `analyze_codebase` (and the
laravel `chunk_codebase`) complete normally and return the empty chunk
collection — `os.walk` silently yields nothing — rather than failing with a
`PathNotFound`-style error. -/
theorem c4_counterexample :
    analyzeCodebaseE failingParse none "/missing/project" = .ok [] ∧
    chunkCodebase none none "/missing/project" = [] :=
  ⟨rfl, rfl⟩

/-- C4 amended: if the root path does not exist, the run does NOT fail; both
analyzers complete normally with an empty chunk collection, for every parse
oracle and root path. -/
theorem c4_amended_missing_root_empty :
    ∀ (parse : String → Except String Node) (root : String)
      (parser : Option (String → Except String Node)),
      analyzeCodebaseE parse none root = .ok [] ∧ chunkCodebase parser none root = [] :=
  fun _ _ _ => ⟨rfl, rfl⟩

/-- C5 counterexample: with a parse oracle that raises, the php-processor
analyzer aborts the whole run (`_parse_php_file` catches only
`UnicodeDecodeError`), even though the same failure in the laravel
processor's `chunk_using_treesitter` is caught and yields zero chunks. -/
theorem c5_counterexample :
    analyzeCodebaseE failingParse (some appFS) "/project" = .error "parse boom" ∧
    chunkUsingTreesitter failingParse (.ok "<?php class A \x7b\x7d") "/project/app/A.php" = [] :=
  ⟨rfl, rfl⟩

/-- C5 amended: per-file failure handling differs between the two processors.
In `chunk_using_treesitter` every failure (read error or parse exception) is
caught and the file contributes zero chunks; the regex path likewise catches
read errors.  In `_parse_php_file` only a `UnicodeDecodeError` while reading
is caught (zero chunks); a parse exception propagates out of the per-file
call and aborts the analyzer run. -/
theorem c5_amended_error_boundaries :
    ∀ (msg content filePath fileType : String),
      chunkUsingTreesitter (fun _ => .error msg) (.ok content) filePath = [] ∧
      chunkUsingTreesitter (fun _ => .error msg) .decodeError filePath = [] ∧
      chunkUsingRegex .decodeError filePath = [] ∧
      parsePhpFileE (fun _ => .error msg) (.ok content) fileType filePath = .error msg ∧
      parsePhpFileE (fun _ => .error msg) .decodeError fileType filePath = .ok [] := by
  intro msg content filePath fileType
  refine ⟨?_, rfl, rfl, rfl, rfl⟩
  simp only [chunkUsingTreesitter]
  split <;> rfl

/-- C2: for every class chunk emitted by `_parse_php_file`, the metadata's
`method_count` equals the length of `method_names`, both equal the number of
method chunks emitted right after the class chunk for that class, and those
chunks are named `ClassName::m` for exactly the names `m` in `method_names` —
the metadata and the chunk loop run the same `_query_nodes(class_node,
"method_declaration")` query. -/
theorem c2_class_metadata_consistency :
    ∀ (fileType : String) (tree : Node) (content filePath : String) (c : Node),
      c ∈ queryNodes "class_declaration" tree →
      (classChunkOf fileType tree content filePath c).metadata = extractClassMetadata c content ∧
      mlookup (extractClassMetadata c content) "method_count" =
        some (MVal.n (queryNodes "method_declaration" c).length) ∧
      mlookup (extractClassMetadata c content) "method_names" =
        some (MVal.sl ((queryNodes "method_declaration" c).map
          (fun m => getNodeTextOpt (childByFieldName m "name") content))) ∧
      ((queryNodes "method_declaration" c).map
        (methodChunkOf fileType tree content filePath
          (getNodeTextOpt (childByFieldName c "name") content))).length =
        (queryNodes "method_declaration" c).length ∧
      ((queryNodes "method_declaration" c).map
        (methodChunkOf fileType tree content filePath
          (getNodeTextOpt (childByFieldName c "name") content))).map (fun ch => ch.name) =
        ((queryNodes "method_declaration" c).map
          (fun m => getNodeTextOpt (childByFieldName m "name") content)).map
          (fun nm => getNodeTextOpt (childByFieldName c "name") content ++ "::" ++ nm) ∧
      parsePhpFile fileType tree content filePath =
        (queryNodes "class_declaration" tree).flatMap (fun c' =>
          classChunkOf fileType tree content filePath c' ::
            (queryNodes "method_declaration" c').map
              (methodChunkOf fileType tree content filePath
                (getNodeTextOpt (childByFieldName c' "name") content))) := by
  intro fileType tree content filePath c _
  refine ⟨rfl, ?_, ?_, by simp, ?_, rfl⟩
  · cases hsup : childByFieldName c "superclass" <;>
      cases hint : childByFieldName c "interfaces" <;>
      simp only [extractClassMetadata, hsup, hint] <;> rfl
  · cases hsup : childByFieldName c "superclass" <;>
      cases hint : childByFieldName c "interfaces" <;>
      simp only [extractClassMetadata, hsup, hint] <;> rfl
  · simp [methodChunkOf, List.map_map]

/-- C2 witness: the `Widget` class of the concrete fixture has
`method_count = 2`, matching its two method chunks `Widget::alpha` and
`Widget::beta`. -/
theorem c2_witness :
    mlookup (extractClassMetadata widgetClassNode widgetSource) "method_count" =
      some (MVal.n (queryNodes "method_declaration" widgetClassNode).length) :=
  (c2_class_metadata_consistency "php" widgetTree widgetSource "/project/app/Widget.php"
    widgetClassNode (by decide)).2.1

/-- C10: a file whose content is empty or consists only of (ASCII) whitespace
yields zero chunks on both the tree-sitter path and the regex fallback path,
and consequently the whole-file `file_content` fallback chunk can only be
emitted for a file with some non-whitespace content. -/
theorem c10_whitespace_only_zero_chunks :
    ∀ (parse : String → Except String Node) (filePath content : String),
      (content.data.all isAsciiWS = true →
        chunkUsingTreesitter parse (.ok content) filePath = [] ∧
        chunkUsingRegex (.ok content) filePath = []) ∧
      ((chunkUsingTreesitter parse (.ok content) filePath).any
          (fun ch => mlookup ch.metadata "type" = some (MVal.s "file_content")) = true →
        content.data.all isAsciiWS = false) := by
  intro parse filePath content
  have main : content.data.all isAsciiWS = true →
      chunkUsingTreesitter parse (.ok content) filePath = [] ∧
      chunkUsingRegex (.ok content) filePath = [] := by
    intro h
    have hall : ∀ c ∈ content.data, isAsciiWS c = true := by
      simpa [List.all_eq_true] using h
    have hbytes : bytesStripL content.data = [] := pyStripL_of_all_true hall
    have hpy : pyStripL isPyWS content.data = [] :=
      pyStripL_of_all_true (fun c hc => isPyWS_of_isAsciiWS (hall c hc))
    constructor
    · simp [chunkUsingTreesitter, hbytes]
    · simp [chunkUsingRegex, hpy]
  refine ⟨main, ?_⟩
  intro hany
  cases h : content.data.all isAsciiWS with
  | false => rfl
  | true =>
      exfalso
      have := (main h).1
      rw [this] at hany
      simp at hany

/-- C10 witness: a whitespace-only file yields zero chunks on both paths. -/
theorem c10_witness :
    chunkUsingTreesitter failingParse (.ok "  \n\t ") "/project/empty.php" = [] ∧
    chunkUsingRegex (.ok "  \n\t ") "/project/empty.php" = [] :=
  (c10_whitespace_only_zero_chunks failingParse "/project/empty.php" "  \n\t ").1 (by decide)

theorem snd_mem_of_mem_enumFrom {α : Type} :
    ∀ (l : List α) (n : Nat) (p : Nat × α), p ∈ l.enumFrom n → p.2 ∈ l := by
  intro l
  induction l with
  | nil => intro n p h; simp [List.enumFrom] at h
  | cons a as ih =>
      intro n p h
      simp only [List.enumFrom, List.mem_cons] at h
      rcases h with h | h
      · simp [h]
      · exact List.mem_cons_of_mem a (ih (n + 1) p h)

/-- C1 counterexample: env chunks do not store the exact original substring.
For the single-line env file `"  APP_NAME=Test"` the emitted chunk spans line
1 to line 1, but its content is the whitespace-STRIPPED line
`"APP_NAME=Test"`, which differs from the original line's bytes — so under
any line-to-byte mapping the stored content is a normalized (stripped)
version, not the exact substring. -/
theorem c1_counterexample :
    (parseEnvFile "  APP_NAME=Test" "/project/.env").map
        (fun c => (c.content, c.start_line, c.end_line)) = [("APP_NAME=Test", 1, 1)] ∧
    pySplitlines "  APP_NAME=Test" = ["  APP_NAME=Test"] ∧
    ("APP_NAME=Test" : String) ≠ "  APP_NAME=Test" :=
  ⟨by decide, by decide, by decide⟩

/-- C1 amended: every chunk whose content is produced through
`_get_node_text` — class chunks, method chunks, route chunks, and config
chunks — stores exactly the source slice at the byte offsets the parser
reports for the corresponding node (and, except for the whole-file config
fallback, its line span is exactly the node's reported row span); env-file
chunks instead store the whitespace-stripped line. -/
theorem c1_amended_exact_content :
    (∀ (fileType : String) (tree : Node) (content filePath : String) (ch : CodeChunk),
      ch ∈ parsePhpFile fileType tree content filePath →
      ∃ nd : Node,
        (nd ∈ queryNodes "class_declaration" tree ∨
          ∃ c ∈ queryNodes "class_declaration" tree, nd ∈ queryNodes "method_declaration" c) ∧
        ch.content = pySliceStr content nd.startByte nd.endByte ∧
        ch.start_line = nd.startRow + 1 ∧ ch.end_line = nd.endRow + 1) ∧
    (∀ (tree : Node) (content filePath : String) (ch : CodeChunk),
      ch ∈ parseRouteFile tree content filePath →
      ∃ nd : Node, nd ∈ queryNodes "member_call_expression" tree ∧
        ch.content = pySliceStr content nd.startByte nd.endByte ∧
        ch.start_line = nd.startRow + 1 ∧ ch.end_line = nd.endRow + 1) ∧
    (∀ (tree : Node) (content filePath : String) (ch : CodeChunk),
      ch ∈ parseConfigFile tree content filePath →
      ∃ a b : Nat, ch.content = pySliceStr content a b) := by
  refine ⟨?_, ?_, ?_⟩
  · intro fileType tree content filePath ch hch
    rw [parsePhpFile, List.mem_flatMap] at hch
    obtain ⟨c, hc, hmem⟩ := hch
    rcases List.mem_cons.mp hmem with hcls | hmeth
    · exact ⟨c, Or.inl hc, by rw [hcls]; exact ⟨rfl, rfl, rfl⟩⟩
    · obtain ⟨m, hm, hchm⟩ := List.mem_map.mp hmeth
      exact ⟨m, Or.inr ⟨c, hc, hm⟩, by rw [← hchm]; exact ⟨rfl, rfl, rfl⟩⟩
  · intro tree content filePath ch hch
    rw [parseRouteFile, List.mem_map] at hch
    obtain ⟨⟨i, d⟩, hd, hchd⟩ := hch
    have hd2 : d ∈ routeDefsOf tree content :=
      snd_mem_of_mem_enumFrom _ 0 (i, d) hd
    rw [routeDefsOf, List.mem_filterMap] at hd2
    obtain ⟨call, hcall, heq⟩ := hd2
    refine ⟨call, hcall, ?_⟩
    by_cases hin : containsSub (getNodeText call content) "Route::" = true
    · rw [if_pos hin] at heq
      cases heq
      rw [← hchd]
      exact ⟨rfl, rfl, rfl⟩
    · rw [if_neg hin] at heq
      cases heq
  · intro tree content filePath ch hch
    rw [parseConfigFile, List.mem_map] at hch
    obtain ⟨ret, _, hchr⟩ := hch
    cases harr : ret.children.find? (fun c => c.ty = "array_creation_expression") with
    | some arr =>
        rw [harr] at hchr
        exact ⟨arr.startByte, arr.endByte, by rw [← hchr]; rfl⟩
    | none =>
        rw [harr] at hchr
        refine ⟨0, content.data.length, ?_⟩
        rw [← hchr]
        exact (pySliceStr_full content).symm

/-- C1 witness: the `Widget` class chunk of the concrete fixture stores
exactly the source slice at its node's reported byte offsets. -/
theorem c1_witness :
    ∃ nd : Node,
      (nd ∈ queryNodes "class_declaration" widgetTree ∨
        ∃ c ∈ queryNodes "class_declaration" widgetTree,
          nd ∈ queryNodes "method_declaration" c) ∧
      (classChunkOf "php" widgetTree widgetSource "/project/app/Widget.php"
          widgetClassNode).content = pySliceStr widgetSource nd.startByte nd.endByte ∧
      (classChunkOf "php" widgetTree widgetSource "/project/app/Widget.php"
          widgetClassNode).start_line = nd.startRow + 1 ∧
      (classChunkOf "php" widgetTree widgetSource "/project/app/Widget.php"
          widgetClassNode).end_line = nd.endRow + 1 :=
  c1_amended_exact_content.1 "php" widgetTree widgetSource "/project/app/Widget.php"
    (classChunkOf "php" widgetTree widgetSource "/project/app/Widget.php" widgetClassNode)
    (by decide)

theorem listIsPre_refl : ∀ l : List Char, listIsPre l l = true := by
  intro l
  induction l with
  | nil => rfl
  | cons a as ih => simp [listIsPre, ih]

theorem listIsPre_append {s l : List Char} (h : listIsPre s l = true) (b : List Char) :
    listIsPre s (l ++ b) = true := by
  induction s generalizing l with
  | nil => rfl
  | cons a as ih =>
      cases l with
      | nil => simp [listIsPre] at h
      | cons c cs =>
          simp only [listIsPre, Bool.and_eq_true, decide_eq_true_eq] at h
          simp [listIsPre, h.1, ih h.2]

theorem containsSubL_of_isPre {l sub : List Char} (h : listIsPre sub l = true) :
    containsSubL l sub = true := by
  cases l <;> simp [containsSubL, h]

theorem containsSubL_cons {a sub : List Char} (x : Char)
    (h : containsSubL a sub = true) : containsSubL (x :: a) sub = true := by
  simp [containsSubL, h]

theorem containsSubL_append_left {a sub : List Char} (b : List Char)
    (h : containsSubL a sub = true) : containsSubL (a ++ b) sub = true := by
  induction a with
  | nil =>
      cases sub with
      | nil => exact containsSubL_of_isPre (listIsPre_refl [])
      | cons c cs => simp [containsSubL, listIsPre] at h
  | cons x a' ih =>
      simp only [containsSubL, Bool.or_eq_true] at h
      rcases h with h | h
      · exact containsSubL_of_isPre (listIsPre_append h b)
      · exact containsSubL_cons x (ih h)

theorem containsSubL_suffix : ∀ (a sub : List Char), containsSubL (a ++ sub) sub = true := by
  intro a sub
  induction a with
  | nil => exact containsSubL_of_isPre (listIsPre_refl sub)
  | cons x a' ih => exact containsSubL_cons x ih

mutual
theorem walkFS_dirpath_ext : ∀ (t : FSTree) (p : String) (rel : List String) (e : WalkEntry),
    e ∈ walkFS p rel t → ∃ q : List Char, e.dirpath.data = p.data ++ q
  | .mk files subs => by
      intro p rel e he
      rcases List.mem_cons.mp he with h | h
      · exact ⟨[], by rw [h]; simp⟩
      · exact walkFSL_dirpath_ext subs p rel e h
theorem walkFSL_dirpath_ext : ∀ (ts : FSList) (p : String) (rel : List String) (e : WalkEntry),
    e ∈ walkFSL p rel ts → ∃ q : List Char, e.dirpath.data = p.data ++ q
  | .nil => by intro p rel e he; simp [walkFSL] at he
  | .cons dname t rest => by
      intro p rel e he
      rcases List.mem_append.mp he with h | h
      · obtain ⟨q, hq⟩ := walkFS_dirpath_ext t (p ++ "/" ++ dname) (rel ++ [dname]) e h
        refine ⟨"/".data ++ dname.data ++ q, ?_⟩
        rw [hq]
        simp [String.data_append]
      · exact walkFSL_dirpath_ext rest p rel e h
end

mutual
theorem walkFS_rel_sub : ∀ (t : FSTree) (p : String) (rel : List String) (e : WalkEntry),
    e ∈ walkFS p rel t → ∀ s ∈ e.rel, s ∈ rel ∨ containsSub e.dirpath s = true
  | .mk files subs => by
      intro p rel e he s hs
      rcases List.mem_cons.mp he with h | h
      · subst h; exact Or.inl hs
      · exact walkFSL_rel_sub subs p rel e h s hs
theorem walkFSL_rel_sub : ∀ (ts : FSList) (p : String) (rel : List String) (e : WalkEntry),
    e ∈ walkFSL p rel ts → ∀ s ∈ e.rel, s ∈ rel ∨ containsSub e.dirpath s = true
  | .nil => by intro p rel e he; simp [walkFSL] at he
  | .cons dname t rest => by
      intro p rel e he s hs
      rcases List.mem_append.mp he with h | h
      · rcases walkFS_rel_sub t (p ++ "/" ++ dname) (rel ++ [dname]) e h s hs with hrel | hsub
        · rcases List.mem_append.mp hrel with h1 | h1
          · exact Or.inl h1
          · right
            have hname : s = dname := by simpa using h1
            obtain ⟨q, hq⟩ := walkFS_dirpath_ext t (p ++ "/" ++ dname) (rel ++ [dname]) e h
            have hdata : e.dirpath.data = ((p ++ "/").data ++ s.data) ++ q := by
              rw [hq, hname]
              simp [String.data_append]
            rw [containsSub, hdata]
            exact containsSubL_append_left q (containsSubL_suffix (p ++ "/").data s.data)
        · exact Or.inr hsub
      · exact walkFSL_rel_sub rest p rel e h s hs
end

mutual
theorem gftpTree_segs : ∀ (t : FSTree) (segs : List String) (f : String),
    (segs, f) ∈ gftpTree t → ∀ s ∈ segs,
      gftpExcludedDirs.contains s = false ∧ pyStartsWith s "." = false
  | .mk files subs => by
      intro segs f hmem s hs
      rcases List.mem_append.mp hmem with h | h
      · obtain ⟨f', _, hf'⟩ := List.mem_filterMap.mp h
        by_cases h1 : gftpExcludedFiles.contains f'.1 = true
        · rw [if_pos h1] at hf'; cases hf'
        · rw [if_neg h1] at hf'
          by_cases h2 : gftpAllowedExtensions.contains (asciiLower (pySplitextExt f'.1)) = true
          · rw [if_pos h2] at hf'
            have hnil : ([] : List String) = segs := congrArg Prod.fst (Option.some.inj hf')
            rw [← hnil] at hs
            simp at hs
          · rw [if_neg h2] at hf'; cases hf'
      · exact gftpList_segs subs segs f h s hs
theorem gftpList_segs : ∀ (ts : FSList) (segs : List String) (f : String),
    (segs, f) ∈ gftpList ts → ∀ s ∈ segs,
      gftpExcludedDirs.contains s = false ∧ pyStartsWith s "." = false
  | .nil => by intro segs f hmem; simp [gftpList] at hmem
  | .cons dname t rest => by
      intro segs f hmem s hs
      rcases List.mem_append.mp hmem with h | h
      · by_cases hg : (gftpExcludedDirs.contains dname || pyStartsWith dname ".") = true
        · rw [if_pos hg] at h
          simp at h
        · rw [if_neg hg] at h
          obtain ⟨⟨segs', f'⟩, hsf, heq⟩ := List.mem_map.mp h
          have hsegs : dname :: segs' = segs := congrArg Prod.fst heq
          have hf : f' = f := congrArg Prod.snd heq
          rw [← hsegs] at hs
          rcases List.mem_cons.mp hs with hsname | hsmem
          · constructor
            · cases hc : gftpExcludedDirs.contains s
              · rfl
              · rw [hsname] at hc
                exact absurd (by rw [hc]; rfl) hg
            · cases hc : pyStartsWith s "."
              · rfl
              · rw [hsname] at hc
                exact absurd (by rw [hc]; simp) hg
          · exact gftpTree_segs t segs' f' hsf s hsmem
      · exact gftpList_segs rest segs f h s hs
end

/-- C7 counterexample: `LaravelProcessor.chunk_codebase`
(laravel_processor.py:23) walks with NO directory exclusion, so a `.php` file
inside `vendor/` does produce a chunk. -/
theorem c7_counterexample :
    (chunkCodebase none (some vendorFS) "/project").length = 1 ∧
    (chunkCodebase none (some vendorFS) "/project").all
      (fun ch => mlookup ch.metadata "file" = some (MVal.s "/project/vendor/evil.php")) = true :=
  ⟨by decide, by decide⟩

/-- C7 amended: the exclusion holds for `_get_files_to_process` (which prunes
excluded directory names while walking) and for `analyze_codebase` in
php_processor.py (whose processed folders never lie under a `vendor/` or
`node_modules/` directory) — but NOT for `chunk_codebase` in
laravel_processor.py, which walks every directory and does produce chunks
from `vendor/` files. -/
theorem c7_amended_exclusions :
    (∀ (fs : FSTree) (segs : List String) (f : String),
      (segs, f) ∈ getFilesToProcess fs → ¬ ("vendor" ∈ segs) ∧ ¬ ("node_modules" ∈ segs)) ∧
    (∀ (root : String) (fs : Option FSTree) (e : WalkEntry),
      e ∈ analyzeProcessedFolders root fs → ¬ ("vendor" ∈ e.rel) ∧ ¬ ("node_modules" ∈ e.rel)) := by
  constructor
  · intro fs segs f hmem
    constructor
    · intro hv
      have := (gftpTree_segs fs segs f hmem "vendor" hv).1
      simp [gftpExcludedDirs] at this
    · intro hv
      have := (gftpTree_segs fs segs f hmem "node_modules" hv).1
      simp [gftpExcludedDirs] at this
  · intro root fs e hmem
    have hfilter := List.mem_filter.mp hmem
    have hskip : phpFolderSkip e = false := by
      have := hfilter.2
      simpa using this
    have key : ∀ s : String, s ∈ phpExcludedDirs → s ∈ e.rel → False := by
      intro s hsex hsrel
      cases fs with
      | none => simp [analyzeProcessedFolders, walkOpt] at hmem
      | some t =>
          have hwalk : e ∈ walkFS root [] t := by
            simpa [walkOpt] using hfilter.1
          rcases walkFS_rel_sub t root [] e hwalk s hsrel with h | h
          · simp at h
          · have : phpFolderSkip e = true := by
              unfold phpFolderSkip
              have hany : phpExcludedDirs.any (fun ex => containsSub e.dirpath ex) = true :=
                List.any_eq_true.mpr ⟨s, hsex, h⟩
              simp [hany]
            rw [this] at hskip
            exact Bool.noConfusion hskip
    exact ⟨fun hv => key "vendor" (by simp [phpExcludedDirs]) hv,
           fun hv => key "node_modules" (by simp [phpExcludedDirs]) hv⟩

/-- C7 witness: the concrete `app/A.php` file is yielded by
`_get_files_to_process` and its segment chain contains neither `vendor` nor
`node_modules`. -/
theorem c7_witness :
    ¬ ("vendor" ∈ (["app"] : List String)) ∧ ¬ ("node_modules" ∈ (["app"] : List String)) :=
  c7_amended_exclusions.1 appFS ["app"] "A.php" (by decide)

theorem dedupAux_subset : ∀ (fuel : Nat) (l : List String) (x : String),
    x ∈ dedupFirstSeenAux fuel l → x ∈ l := by
  intro fuel
  induction fuel with
  | zero => intro l x h; simp [dedupFirstSeenAux] at h
  | succ f ih =>
      intro l x h
      cases l with
      | nil => simp [dedupFirstSeenAux] at h
      | cons y ys =>
          rcases List.mem_cons.mp h with rfl | h
          · exact List.mem_cons_self _ _
          · exact List.mem_cons_of_mem y (List.mem_of_mem_filter (ih _ x h))

theorem dedupAux_fuel_eq : ∀ (f1 f2 : Nat) (l : List String),
    l.length ≤ f1 → l.length ≤ f2 → dedupFirstSeenAux f1 l = dedupFirstSeenAux f2 l := by
  intro f1
  induction f1 with
  | zero =>
      intro f2 l h1 _
      have : l = [] := List.length_eq_zero.mp (Nat.le_zero.mp h1)
      subst this
      cases f2 <;> rfl
  | succ g ih =>
      intro f2 l h1 h2
      cases l with
      | nil => cases f2 <;> rfl
      | cons y ys =>
          cases f2 with
          | zero => simp at h2
          | succ h =>
              simp only [dedupFirstSeenAux]
              have hlen : (ys.filter (· ≠ y)).length ≤ ys.length := List.length_filter_le _ _
              simp only [List.length_cons] at h1 h2
              rw [ih h (ys.filter (· ≠ y)) (by omega) (by omega)]

theorem dedupFirstSeen_cons (x : String) (l : List String) :
    dedupFirstSeen (x :: l) = x :: dedupFirstSeen (l.filter (· ≠ x)) := by
  unfold dedupFirstSeen
  simp only [List.length_cons, dedupFirstSeenAux]
  rw [dedupAux_fuel_eq l.length (l.filter (· ≠ x)).length (l.filter (· ≠ x))
    (List.length_filter_le _ _) (Nat.le_refl _)]

theorem dedup_mem_aux : ∀ (fuel : Nat) (l : List String), l.length ≤ fuel →
    ∀ x, x ∈ dedupFirstSeenAux fuel l ↔ x ∈ l := by
  intro fuel
  induction fuel with
  | zero =>
      intro l h x
      have : l = [] := List.length_eq_zero.mp (Nat.le_zero.mp h)
      subst this
      simp [dedupFirstSeenAux]
  | succ f ih =>
      intro l h x
      cases l with
      | nil => simp [dedupFirstSeenAux]
      | cons y ys =>
          simp only [dedupFirstSeenAux, List.mem_cons]
          simp only [List.length_cons] at h
          rw [ih (ys.filter (· ≠ y)) (le_trans (List.length_filter_le _ _) (by omega)) x]
          constructor
          · rintro (rfl | hx)
            · exact Or.inl rfl
            · exact Or.inr (List.mem_of_mem_filter hx)
          · rintro (rfl | hx)
            · exact Or.inl rfl
            · by_cases hxy : x = y
              · exact Or.inl hxy
              · exact Or.inr (List.mem_filter.mpr ⟨hx, by simp [hxy]⟩)

theorem dedup_mem_iff (l : List String) (x : String) :
    x ∈ dedupFirstSeen l ↔ x ∈ l :=
  dedup_mem_aux l.length l (Nat.le_refl _) x

theorem dedup_nodup_aux : ∀ (fuel : Nat) (l : List String), (dedupFirstSeenAux fuel l).Nodup := by
  intro fuel
  induction fuel with
  | zero => intro l; simp [dedupFirstSeenAux]
  | succ f ih =>
      intro l
      cases l with
      | nil => simp [dedupFirstSeenAux]
      | cons y ys =>
          simp only [dedupFirstSeenAux, List.nodup_cons]
          refine ⟨?_, ih _⟩
          intro hmem
          have := List.mem_filter.mp (dedupAux_subset f _ y hmem)
          simp at this

theorem dedup_nodup (l : List String) : (dedupFirstSeen l).Nodup :=
  dedup_nodup_aux l.length l

theorem litPrefix_isSome_of_isPre : ∀ (p l : List Char), listIsPre p l = true →
    ∃ r, litPrefix p l = some r := by
  intro p
  induction p with
  | nil => intro l _; exact ⟨l, rfl⟩
  | cons a as ih =>
      intro l h
      cases l with
      | nil => simp [listIsPre] at h
      | cons c cs =>
          simp only [listIsPre, Bool.and_eq_true, decide_eq_true_eq] at h
          obtain ⟨r, hr⟩ := ih cs h.2
          exact ⟨r, by simp [litPrefix, h.1, hr]⟩

theorem tryNewAt_shape : ∀ (l grp rem : List Char), tryNewAt l = some (grp, rem) →
    grp ≠ [] ∧ ∀ c ∈ grp, isWordChar c = true := by
  intro l grp rem h
  unfold tryNewAt at h
  cases h1 : litPrefix "new".data l with
  | none => rw [h1] at h; cases h
  | some r1 =>
      rw [h1] at h
      dsimp only at h
      cases h2 : plusRun isRegexWS r1 with
      | none => rw [h2] at h; cases h
      | some pr =>
          rw [h2] at h
          obtain ⟨ws, r2⟩ := pr
          dsimp only at h
          cases r2 with
          | nil => cases h
          | cons c r3 =>
              dsimp only at h
              by_cases hc : isUpperAZ c = true
              · rw [if_pos hc] at h
                injection h with h'
                injection h' with hgrp hrem
                subst hgrp
                refine ⟨by simp, ?_⟩
                intro ch hch
                rcases List.mem_cons.mp hch with rfl | hch
                · simp only [isUpperAZ, Bool.and_eq_true, decide_eq_true_eq] at hc
                  simp [isWordChar, hc.1, hc.2]
                · exact List.mem_takeWhile_imp hch
              · rw [if_neg hc] at h
                cases h

theorem findallWith_shape {try_ : List Char → Option (List Char × List Char)} :
    ∀ (fuel : Nat) (l : List Char) (n : String), n ∈ findallWith try_ fuel l →
      ∃ l' grp rem, try_ l' = some (grp, rem) ∧ n = (⟨grp⟩ : String) := by
  intro fuel
  induction fuel with
  | zero => intro l n h; simp [findallWith] at h
  | succ f ih =>
      intro l n h
      cases l with
      | nil => simp [findallWith] at h
      | cons c rest =>
          unfold findallWith at h
          cases ht : try_ (c :: rest) with
          | none =>
              rw [ht] at h
              exact ih rest n h
          | some gr =>
              rw [ht] at h
              obtain ⟨grp, rem⟩ := gr
              rcases List.mem_cons.mp h with rfl | h
              · exact ⟨c :: rest, grp, rem, ht, rfl⟩
              · exact ih rem n h

theorem findallClassConst_of_contains : ∀ (fuel : Nat) (l : List Char),
    l.length ≤ fuel → containsSubL l "::class".data = true →
    "::class" ∈ findallWith tryClassConstAt fuel l := by
  intro fuel
  induction fuel with
  | zero =>
      intro l hlen hsub
      have : l = [] := List.length_eq_zero.mp (Nat.le_zero.mp hlen)
      subst this
      simp [containsSubL, listIsPre] at hsub
  | succ f ih =>
      intro l hlen hsub
      cases l with
      | nil => simp [containsSubL, listIsPre] at hsub
      | cons c rest =>
          unfold findallWith
          cases ht : tryClassConstAt (c :: rest) with
          | none =>
              simp only
              apply ih rest (by simpa [Nat.succ_le_succ_iff] using hlen)
              simp only [containsSubL, Bool.or_eq_true] at hsub
              rcases hsub with hpre | hsub
              · exfalso
                unfold tryClassConstAt at ht
                obtain ⟨r, hr⟩ := litPrefix_isSome_of_isPre "::class".data (c :: rest) hpre
                rw [hr] at ht
                cases ht
              · exact hsub
          | some gr =>
              obtain ⟨grp, rem⟩ := gr
              unfold tryClassConstAt at ht
              cases hlit : litPrefix "::class".data (c :: rest) with
              | none => rw [hlit] at ht; cases ht
              | some r =>
                  rw [hlit] at ht
                  injection ht with ht'
                  injection ht' with hgrp hrem
                  subst hgrp
                  exact List.mem_cons.mpr (Or.inl (by decide))

theorem wordChar_not_pyWS : ∀ c : Char, isWordChar c = true → isPyWS c = false := by
  intro c hwc
  cases hpw : isPyWS c
  · rfl
  · exfalso
    simp only [isPyWS, isAsciiWS, Bool.or_eq_true, decide_eq_true_eq, or_assoc] at hpw
    rcases hpw with rfl|rfl|rfl|rfl|rfl|rfl|rfl|rfl|rfl|rfl|rfl|rfl|rfl|rfl|rfl|rfl|rfl|
      rfl|rfl|rfl|rfl|rfl|rfl|rfl|rfl|rfl|rfl|rfl|rfl <;>
      exact absurd hwc (by decide)

theorem wordChar_not_bs : ∀ c : Char, isWordChar c = true → decide (c = '\\') = false := by
  intro c hwc
  cases hd : decide (c = '\\')
  · rfl
  · exfalso
    have := of_decide_eq_true hd
    subst this
    exact absurd hwc (by decide)

theorem strip_of_wordChars {n : String} (h : ∀ c ∈ n.data, isWordChar c = true) :
    pyStripBackslash (pyStrip n) = n := by
  have h1 : pyStrip n = n := by
    unfold pyStrip
    rw [pyStripL_of_all_false (fun c hc => wordChar_not_pyWS c (h c hc))]
  rw [h1]
  unfold pyStripBackslash
  rw [pyStripL_of_all_false (fun c hc => wordChar_not_bs c (h c hc))]

theorem cleanup_eq : ∀ (raw acc : List String),
    cleanupDepsAux raw acc =
      acc ++ dedupFirstSeen ((raw.map (fun d => pyStripBackslash (pyStrip d))).filter
        (fun x => x ≠ "" && ¬ acc.contains x)) := by
  intro raw
  induction raw with
  | nil =>
      intro acc
      simp [cleanupDepsAux, dedupFirstSeen, dedupFirstSeenAux]
  | cons d rest ih =>
      intro acc
      simp only [cleanupDepsAux, List.map_cons, List.filter_cons]
      by_cases hcond : (pyStripBackslash (pyStrip d) ≠ "" &&
          ¬ acc.contains (pyStripBackslash (pyStrip d))) = true
      · rw [if_pos hcond, if_pos hcond, ih (acc ++ [pyStripBackslash (pyStrip d)])]
        rw [dedupFirstSeen_cons, List.filter_filter]
        have hpt : ∀ x ∈ rest.map (fun d => pyStripBackslash (pyStrip d)),
            (x ≠ "" && ¬ (acc ++ [pyStripBackslash (pyStrip d)]).contains x) =
            ((x ≠ pyStripBackslash (pyStrip d)) && (x ≠ "" && ¬ acc.contains x)) := by
          intro x _
          by_cases h1 : x = pyStripBackslash (pyStrip d)
          · subst h1
            simp
          · by_cases h2 : acc.contains x = true
            · simp [h1, h2]
            · simp [h1, h2]
        rw [List.filter_congr hpt]
        simp [List.append_assoc]
      · rw [if_neg hcond, if_neg hcond]
        exact ih acc

/-- C8 counterexample: for the file content `"new Foo(); Bar::class;"` the
dependency list is `["Foo", "::class"]` — the `::class` pattern has no
capture group, so `re.findall` contributes the literal text `"::class"` and
`Bar` never appears. -/
theorem c8_counterexample :
    extractDependencies emptyProgramNode "new Foo(); Bar::class;" = ["Foo", "::class"] ∧
    "Bar" ∉ extractDependencies emptyProgramNode "new Foo(); Bar::class;" :=
  ⟨by decide, by decide⟩

/-- C8 amended: the heuristic scan is always applied and `_extract_dependencies`
returns the first-seen de-duplication of the stripped raw matches (whitespace
and backslashes trimmed from both ends, empties dropped): every name matched
by `new ClassName` appears in the result, and an occurrence of `X::class`
contributes the literal string `"::class"` (not `X`) because that pattern has
no capture group; the result is duplicate-free. -/
theorem c8_amended_dependency_scan :
    ∀ (tree : Node) (content : String),
      extractDependencies tree content =
        dedupFirstSeen (((rawDeps tree content).map
          (fun d => pyStripBackslash (pyStrip d))).filter (fun x => x ≠ "")) ∧
      (∀ n, n ∈ findallOn tryNewAt content → n ∈ extractDependencies tree content) ∧
      (containsSub content "::class" = true → "::class" ∈ extractDependencies tree content) ∧
      (extractDependencies tree content).Nodup := by
  intro tree content
  have heq : extractDependencies tree content =
      dedupFirstSeen (((rawDeps tree content).map
        (fun d => pyStripBackslash (pyStrip d))).filter (fun x => x ≠ "")) := by
    unfold extractDependencies
    rw [cleanup_eq (rawDeps tree content) []]
    rw [List.filter_congr (fun x _ => by simp : ∀ x ∈ (rawDeps tree content).map
      (fun d => pyStripBackslash (pyStrip d)),
        (x ≠ "" && ¬ ([] : List String).contains x) = decide (x ≠ ""))]
    simp
  have hmemraw : ∀ n, n ∈ findallOn tryNewAt content ∨ n ∈ findallOn tryClassConstAt content →
      n ∈ rawDeps tree content := by
    intro n hn
    unfold rawDeps
    rcases hn with hn | hn
    · simp only [List.mem_append]
      exact Or.inl (Or.inl (Or.inl (Or.inr hn)))
    · simp only [List.mem_append]
      exact Or.inl (Or.inl (Or.inr hn))
  have hinto : ∀ n, n ∈ rawDeps tree content → pyStripBackslash (pyStrip n) = n → n ≠ "" →
      n ∈ extractDependencies tree content := by
    intro n hn hstrip hne
    rw [heq, dedup_mem_iff]
    refine List.mem_filter.mpr ⟨List.mem_map.mpr ⟨n, hn, hstrip⟩, by simp [hne]⟩
  refine ⟨heq, ?_, ?_, ?_⟩
  · intro n hn
    obtain ⟨l', grp, rem, htry, rfl⟩ := findallWith_shape content.data.length content.data n hn
    obtain ⟨hne, hshape⟩ := tryNewAt_shape l' grp rem htry
    refine hinto _ (hmemraw _ (Or.inl hn)) (strip_of_wordChars hshape) ?_
    intro habs
    apply hne
    have := congrArg String.data habs
    simpa using this
  · intro hsub
    have hmem : "::class" ∈ findallOn tryClassConstAt content :=
      findallClassConst_of_contains content.data.length content.data (Nat.le_refl _) hsub
    exact hinto _ (hmemraw _ (Or.inr hmem)) (by decide) (by decide)
  · rw [heq]
    exact dedup_nodup _

/-- C8 witness: in `"new Foo(); Bar::class;"` the name `Foo` and the literal
`"::class"` are members of the extracted dependency list, which is
duplicate-free. -/
theorem c8_witness :
    "Foo" ∈ extractDependencies emptyProgramNode "new Foo(); Bar::class;" ∧
    "::class" ∈ extractDependencies emptyProgramNode "new Foo(); Bar::class;" ∧
    (extractDependencies emptyProgramNode "new Foo(); Bar::class;").Nodup :=
  ⟨(c8_amended_dependency_scan emptyProgramNode "new Foo(); Bar::class;").2.1 "Foo" (by decide),
   (c8_amended_dependency_scan emptyProgramNode "new Foo(); Bar::class;").2.2.1 (by decide),
   (c8_amended_dependency_scan emptyProgramNode "new Foo(); Bar::class;").2.2.2⟩

theorem countChar_cons (a : Char) (l : List Char) (c : Char) :
    countChar (a :: l) c = countChar l c + (if a = c then 1 else 0) := by
  simp only [countChar, List.countP_cons, decide_eq_true_eq]

theorem findIdx?_offset_spec {p : Char → Bool} : ∀ (l : List Char) (i k : Nat),
    List.findIdx? p l i = some k →
    i ≤ k ∧ (∃ c rest, l.drop (k - i) = c :: rest ∧ p c = true) ∧
      (∀ j, j < k - i → ∀ c rest, l.drop j = c :: rest → p c = false) := by
  intro l
  induction l with
  | nil => intro i k h; rw [List.findIdx?_nil] at h; cases h
  | cons x xs ih =>
      intro i k h
      rw [List.findIdx?_cons] at h
      by_cases hp : p x = true
      · rw [if_pos hp] at h
        injection h with h'
        subst h'
        refine ⟨Nat.le_refl _, ⟨x, xs, by simp, hp⟩, ?_⟩
        intro j hj
        omega
      · rw [if_neg hp] at h
        obtain ⟨hik, ⟨c, rest, hdrop, hc⟩, hbefore⟩ := ih (i + 1) k h
        refine ⟨by omega, ⟨c, rest, ?_, hc⟩, ?_⟩
        · have : k - i = (k - (i + 1)) + 1 := by omega
          rw [this]
          simpa using hdrop
        · intro j hj c' rest' hdrop'
          cases j with
          | zero =>
              simp at hdrop'
              rw [← hdrop'.1]
              simpa using hp
          | succ j' =>
              have : (x :: xs).drop (j' + 1) = xs.drop j' := by simp
              rw [this] at hdrop'
              exact hbefore j' (by omega) c' rest' hdrop'

theorem scanBraces_spec : ∀ (l : List Char) (level pos cp : Nat), 1 ≤ level →
    scanBraces l level pos = some cp →
    ∃ k, k < l.length ∧ cp = pos + k ∧
      (∃ rest, l.drop k = '}' :: rest) ∧
      countChar (l.take k) '{' + level = countChar (l.take k) '}' + 1 ∧
      (∀ j, j ≤ k → countChar (l.take j) '}' < countChar (l.take j) '{' + level) := by
  intro l
  induction l with
  | nil => intro level pos cp _ h; cases h
  | cons c rest ih =>
      intro level pos cp hlev h
      unfold scanBraces at h
      by_cases hc1 : c = '{'
      · rw [if_pos hc1] at h
        obtain ⟨k', hk'len, hcp, hdrop, hcount, hpre⟩ := ih (level + 1) (pos + 1) cp (by omega) h
        refine ⟨k' + 1, by simp [Nat.succ_lt_succ_iff]; omega, by omega, by simpa using hdrop,
          ?_, ?_⟩
        · rw [List.take_succ_cons, countChar_cons, countChar_cons, if_pos hc1,
            if_neg (by rw [hc1]; decide)]
          omega
        · intro j hj
          cases j with
          | zero => simp [countChar]; omega
          | succ j' =>
              rw [List.take_succ_cons, countChar_cons, countChar_cons, if_pos hc1,
                if_neg (by rw [hc1]; decide)]
              have := hpre j' (by omega)
              omega
      · rw [if_neg hc1] at h
        by_cases hc2 : c = '}'
        · rw [if_pos hc2] at h
          by_cases hl1 : level = 1
          · rw [if_pos hl1] at h
            injection h with h'
            subst h'
            refine ⟨0, by simp, by omega, ⟨rest, by simp [hc2]⟩, by simp [countChar]; omega, ?_⟩
            intro j hj
            have : j = 0 := Nat.le_zero.mp hj
            subst this
            simp [countChar]
            omega
          · rw [if_neg hl1] at h
            obtain ⟨k', hk'len, hcp, hdrop, hcount, hpre⟩ :=
              ih (level - 1) (pos + 1) cp (by omega) h
            refine ⟨k' + 1, by simp [Nat.succ_lt_succ_iff]; omega, by omega,
              by simpa using hdrop, ?_, ?_⟩
            · rw [List.take_succ_cons, countChar_cons, countChar_cons, if_pos hc2,
                if_neg (by rw [hc2]; decide)]
              omega
            · intro j hj
              cases j with
              | zero => simp [countChar]; omega
              | succ j' =>
                  rw [List.take_succ_cons, countChar_cons, countChar_cons, if_pos hc2,
                    if_neg (by rw [hc2]; decide)]
                  have := hpre j' (by omega)
                  omega
        · rw [if_neg hc2] at h
          obtain ⟨k', hk'len, hcp, hdrop, hcount, hpre⟩ := ih level (pos + 1) cp hlev h
          refine ⟨k' + 1, by simp [Nat.succ_lt_succ_iff]; omega, by omega,
            by simpa using hdrop, ?_, ?_⟩
          · rw [List.take_succ_cons, countChar_cons, countChar_cons, if_neg hc1, if_neg hc2]
            omega
          · intro j hj
            cases j with
            | zero => simp [countChar]; omega
            | succ j' =>
                rw [List.take_succ_cons, countChar_cons, countChar_cons, if_neg hc1, if_neg hc2]
                have := hpre j' (by omega)
                omega

theorem take_succ_of_drop {l : List Char} {c : Char} {rest : List Char} :
    ∀ (k : Nat), l.drop k = c :: rest → l.take (k + 1) = l.take k ++ [c] := by
  induction l generalizing rest with
  | nil => intro k h; simp at h
  | cons x xs ih =>
      intro k h
      cases k with
      | zero =>
          simp only [List.drop_zero] at h
          injection h with h1 h2
          simp [h1]
      | succ k' =>
          simp only [List.drop_succ_cons] at h
          simp [List.take_succ_cons, ih k' h]

/-- Characterization of `_extract_block_with_braces`: a successful extraction
returns the exact source slice from the first opening brace at or after the
match offset through the brace that restores the balance to zero — the block
starts with `{`, ends with `}`, its braces balance exactly, and every proper
prefix has strictly more opening than closing braces. -/
theorem extractBlock_spec : ∀ (content : String) (offset : Nat) (block : String) (endPos : Nat),
    extractBlockWithBraces content offset = some (block, endPos) →
    ∃ openIdx, offset ≤ openIdx ∧
      block = pySliceStr content openIdx endPos ∧
      block.data.head? = some '{' ∧
      block.data.getLast? = some '}' ∧
      countChar block.data '{' = countChar block.data '}' ∧
      (∀ m, 0 < m → m < block.data.length →
        countChar (block.data.take m) '}' < countChar (block.data.take m) '{') := by
  intro content offset block endPos h
  unfold extractBlockWithBraces at h
  cases hidx : strIndexFrom content.data '{' offset with
  | none => rw [hidx] at h; cases h
  | some openIdx =>
      rw [hidx] at h
      dsimp only at h
      cases hscan : scanBraces (content.data.drop (openIdx + 1)) 1 (openIdx + 1) with
      | none => rw [hscan] at h; cases h
      | some closeIdx =>
          rw [hscan] at h
          dsimp only at h
          injection h with h'
          injection h' with hblock hend
          subst hend
          unfold strIndexFrom at hidx
          cases hfind : (content.data.drop offset).findIdx? (· = '{') with
          | none => rw [hfind] at hidx; cases hidx
          | some k0 =>
              rw [hfind] at hidx
              injection hidx with hidx'
              obtain ⟨_, ⟨c0, tail0, hdrop0, hc0⟩, _⟩ := findIdx?_offset_spec _ 0 k0 hfind
              have hc0' : c0 = '{' := by simpa using hc0
              subst hc0'
              have hoff : offset ≤ openIdx := by omega
              have hdropOpen : content.data.drop openIdx = '{' :: tail0 := by
                rw [← hidx']
                rw [← List.drop_drop]
                simpa using hdrop0
              have htail : content.data.drop (openIdx + 1) = tail0 := by
                have : content.data.drop (openIdx + 1) = (content.data.drop openIdx).drop 1 := by
                  rw [List.drop_drop]
                rw [this, hdropOpen]
                simp
              rw [htail] at hscan
              obtain ⟨k, hklen, hcp, ⟨rest2, hdrop2⟩, hcount, hpre⟩ :=
                scanBraces_spec tail0 1 (openIdx + 1) closeIdx (Nat.le_refl 1) hscan
              have hblockData : block.data = '{' :: tail0.take (k + 1) := by
                rw [← hblock]
                show (pySliceL content.data openIdx (closeIdx + 1)) = _
                unfold pySliceL
                rw [hdropOpen]
                have : closeIdx + 1 - openIdx = k + 2 := by omega
                rw [this]
                simp [List.take_succ_cons]
              have htake1 : tail0.take (k + 1) = tail0.take k ++ ['}'] :=
                take_succ_of_drop k hdrop2
              refine ⟨openIdx, hoff, by rw [← hblock], ?_, ?_, ?_, ?_⟩
              · rw [hblockData]; rfl
              · rw [hblockData, htake1, ← List.cons_append]
                exact List.getLast?_concat _
              · rw [hblockData, htake1]
                unfold countChar
                simp only [List.countP_cons, List.countP_append, List.countP_nil]
                norm_num
                simp only [if_neg (show ¬ ('{' : Char) = '}' by decide),
                  if_neg (show ¬ ('}' : Char) = '{' by decide)]
                unfold countChar at hcount
                omega
              · intro m hm hmlen
                rw [hblockData] at hmlen
                simp only [List.length_cons, htake1, List.length_append, List.length_take,
                  List.length_nil] at hmlen
                have hkl : k ≤ tail0.length := Nat.le_of_lt hklen
                have hmk : m - 1 ≤ k := by omega
                obtain ⟨m', rfl⟩ : ∃ m', m = m' + 1 := ⟨m - 1, by omega⟩
                rw [hblockData, List.take_succ_cons, countChar_cons, countChar_cons,
                  if_neg (by decide), if_pos rfl]
                have hm'k : m' ≤ k := by omega
                have htakeeq : (tail0.take (k + 1)).take m' = tail0.take m' := by
                  rw [List.take_take]
                  congr 1
                  omega
                rw [htakeeq]
                have := hpre m' hm'k
                omega

/-- C9 counterexample: for
`function foo() { if (true) { return 1; } }` the regex fallback emits exactly
one chunk, but the chunk's content is the brace-delimited block starting at
the first `{` — NOT the span from the signature start to the matching
close-brace (which here is the whole text, since the balancing `}` is the
final character). -/
theorem c9_counterexample :
    (chunkUsingRegex (.ok braceExample) "/project/f.php").map (fun c => c.content) =
      [braceExampleBlock] ∧
    pySliceStr braceExample 0 braceExample.data.length = braceExample ∧
    braceExampleBlock ≠ braceExample :=
  ⟨by decide, pySliceStr_full braceExample, by decide⟩

/-- C9 amended: the brace scanner walks forward from the first `{` at or after
the signature's match position, counting nested braces until the balance
returns to zero, and the emitted chunk's CONTENT is exactly that
brace-delimited block (`text[first_open_brace : close_brace + 1]`), starting
with `{` and ending at the balance-restoring `}` (the chunk's start_line
still comes from the signature's match position); a signature whose block
contains an unmatched open brace yields no chunk for that definition while
the other definitions in the file are still processed. -/
theorem c9_amended_brace_extraction :
    (∀ (content : String) (offset : Nat) (block : String) (endPos : Nat),
      extractBlockWithBraces content offset = some (block, endPos) →
      ∃ openIdx, offset ≤ openIdx ∧
        block = pySliceStr content openIdx endPos ∧
        block.data.head? = some '{' ∧
        block.data.getLast? = some '}' ∧
        countChar block.data '{' = countChar block.data '}' ∧
        (∀ m, 0 < m → m < block.data.length →
          countChar (block.data.take m) '}' < countChar (block.data.take m) '{')) ∧
    ((chunkUsingRegex (.ok braceExample) "/project/f.php").map (fun c => c.content) =
        [braceExampleBlock] ∧
      extractBlockWithBraces braceExample 0 =
        some (braceExampleBlock, braceExample.data.length)) ∧
    (extractBlockWithBraces unmatchedExample 30 = none ∧
      (chunkUsingRegex (.ok unmatchedExample) "/project/f.php").map
          (fun c => mlookup c.metadata "function_name") = [some (MVal.s "good")]) :=
  ⟨extractBlock_spec, ⟨by decide, by decide⟩, ⟨by decide, by decide⟩⟩

/-- C9 witness: the characterization applied to the concrete example — the
extracted block is the exact slice from the first `{` to the end, starts with
`{`, ends with `}`, and balances exactly. -/
theorem c9_witness :
    ∃ openIdx, 0 ≤ openIdx ∧
      braceExampleBlock = pySliceStr braceExample openIdx braceExample.data.length ∧
      braceExampleBlock.data.head? = some '{' ∧
      braceExampleBlock.data.getLast? = some '}' ∧
      countChar braceExampleBlock.data '{' = countChar braceExampleBlock.data '}' ∧
      (∀ m, 0 < m → m < braceExampleBlock.data.length →
        countChar (braceExampleBlock.data.take m) '}' <
          countChar (braceExampleBlock.data.take m) '{') :=
  c9_amended_brace_extraction.1 braceExample 0 braceExampleBlock braceExample.data.length
    (by decide)

end CodeAssistant
